import Mathlib

/-!
Verification of the native core of the opencode codebase-index engine.

The Rust sources under src/native/src are shallowly embedded:

* `inverted_index.rs` : the BM25 inverted index.  `HashMap` and `HashSet`
  are modelled as association lists and duplicate-free lists; score
  arithmetic (Rust `f64`) is modelled over the reals.
* `db.rs` : the SQLite catalog.  Tables are modelled as lists of row
  structures and each SQL statement as the corresponding list transformation.
* `store.rs` : the usearch-backed vector store.  The HNSW index itself is
  external; its contents are modelled as a list of (id, vector) pairs and
  its approximate search as an oracle argument.
* `parser.rs` / `types.rs` : the chunker.  Source text is modelled as a
  list of characters (one character per byte, adequate for ASCII input,
  where Rust byte length and character count agree); tree-sitter parse
  trees are modelled as an inductive tree supplied as input.
-/

set_option maxHeartbeats 1000000
set_option linter.unusedSectionVars false

namespace OCI

/-! ## Association-list maps and list sets

`HashMap` is modelled as an association list: `ainsert` replaces any
previous binding (as `HashMap::insert` does), `aerase` removes a binding
(as `HashMap::remove`), `alookup` finds the current binding.
`HashSet<String>` is modelled as a duplicate-free list: `sinsert` is
`HashSet::insert`, `sremove` is `HashSet::remove`. -/

def alookup {α β : Type} [BEq α] (k : α) (l : List (α × β)) : Option β :=
  (l.find? (fun p => p.1 == k)).map (·.2)

def aerase {α β : Type} [BEq α] (k : α) (l : List (α × β)) : List (α × β) :=
  l.filter (fun p => !(p.1 == k))

def ainsert {α β : Type} [BEq α] (k : α) (v : β) (l : List (α × β)) : List (α × β) :=
  (k, v) :: aerase k l

def sinsert {α : Type} [BEq α] (x : α) (s : List α) : List α :=
  if s.contains x then s else x :: s

def sremove {α : Type} [BEq α] (x : α) (s : List α) : List α :=
  s.filter (fun y => !(y == x))

section AssocLemmas

variable {α β : Type} [DecidableEq α] [BEq α] [LawfulBEq α]

theorem alookup_cons (k : α) (p : α × β) (l : List (α × β)) :
    alookup k (p :: l) = if p.1 = k then some p.2 else alookup k l := by
  by_cases h : p.1 = k
  · have hb : (p.1 == k) = true := by simp [beq_iff_eq, h]
    simp [alookup, List.find?_cons, hb, h]
  · have hb : (p.1 == k) = false := by simp [beq_iff_eq, h]
    simp [alookup, List.find?_cons, hb, h]

theorem alookup_aerase_self (k : α) (l : List (α × β)) :
    alookup k (aerase k l) = none := by
  induction l with
  | nil => rfl
  | cons p rest ih =>
    by_cases hp : p.1 = k
    · have hb : (p.1 == k) = true := by simp [beq_iff_eq, hp]
      simpa [aerase, List.filter_cons, hb] using ih
    · have hb : (p.1 == k) = false := by simp [beq_iff_eq, hp]
      simpa [aerase, List.filter_cons, hb, alookup_cons, hp] using ih

theorem alookup_aerase_ne (k k' : α) (l : List (α × β)) (h : k' ≠ k) :
    alookup k' (aerase k l) = alookup k' l := by
  induction l with
  | nil => rfl
  | cons p rest ih =>
    by_cases hp : p.1 = k
    · have hb : (p.1 == k) = true := by simp [beq_iff_eq, hp]
      have h2 : ¬ p.1 = k' := by rw [hp]; exact Ne.symm h
      simp [aerase, List.filter_cons, hb, alookup_cons, h2] at ih ⊢
      exact ih
    · have hb : (p.1 == k) = false := by simp [beq_iff_eq, hp]
      by_cases hk' : p.1 = k'
      · rw [aerase, List.filter_cons]
        simp only [hb, Bool.not_false, if_pos]
        rw [show List.filter (fun p => !(p.1 == k)) rest = aerase k rest from rfl]
        rw [alookup_cons, alookup_cons, if_pos hk', if_pos hk']
      · rw [aerase, List.filter_cons]
        simp only [hb, Bool.not_false, if_pos]
        rw [show List.filter (fun p => !(p.1 == k)) rest = aerase k rest from rfl]
        rw [alookup_cons, alookup_cons, if_neg hk', if_neg hk']
        exact ih

theorem alookup_ainsert_self (k : α) (v : β) (l : List (α × β)) :
    alookup k (ainsert k v l) = some v := by
  simp [ainsert, alookup_cons]

theorem alookup_ainsert_ne (k k' : α) (v : β) (l : List (α × β)) (h : k' ≠ k) :
    alookup k' (ainsert k v l) = alookup k' l := by
  rw [ainsert, alookup_cons]
  simp only [if_neg (Ne.symm h)]
  exact alookup_aerase_ne k k' l h

theorem alookup_eq_none_iff (k : α) (l : List (α × β)) :
    alookup k l = none ↔ ∀ p ∈ l, p.1 ≠ k := by
  rw [alookup, Option.map_eq_none', List.find?_eq_none]
  constructor
  · intro h p hp
    have := h p hp
    simpa [beq_iff_eq] using this
  · intro h p hp
    have := h p hp
    simpa [beq_iff_eq] using this

theorem aerase_of_absent (k : α) (l : List (α × β))
    (h : alookup k l = none) : aerase k l = l := by
  have hall := (alookup_eq_none_iff k l).mp h
  refine List.filter_eq_self.mpr ?_
  intro p hp
  have := hall p hp
  simp [beq_iff_eq, this]

theorem aerase_ainsert_of_absent (k : α) (v : β) (l : List (α × β))
    (h : alookup k l = none) : aerase k (ainsert k v l) = l := by
  rw [ainsert]
  show List.filter _ _ = l
  rw [List.filter_cons]
  have hb : ((k, v).1 == k) = true := by simp
  simp only [hb, Bool.not_true, Bool.false_eq_true, if_false]
  show aerase k (aerase k l) = l
  rw [aerase_of_absent k l h, aerase_of_absent k l h]

theorem smem_sinsert_self {x : α} (s : List α) : x ∈ sinsert x s := by
  rw [sinsert]
  by_cases h : s.contains x
  · rw [if_pos h]; exact List.elem_iff.mp h
  · rw [if_neg h]; exact List.mem_cons_self x s

theorem mem_sinsert_iff {x y : α} (s : List α) : y ∈ sinsert x s ↔ y = x ∨ y ∈ s := by
  rw [sinsert]
  by_cases hc : s.contains x
  · have hx : x ∈ s := List.elem_iff.mp hc
    rw [if_pos hc]
    constructor
    · exact fun h => Or.inr h
    · rintro (rfl | h)
      · exact hx
      · exact h
  · rw [if_neg hc]
    exact List.mem_cons

theorem mem_sremove_iff {x y : α} (s : List α) : y ∈ sremove x s ↔ y ∈ s ∧ y ≠ x := by
  simp [sremove, List.mem_filter, beq_iff_eq]

end AssocLemmas

/-! ## Inverted index (src/native/src/inverted_index.rs)

State of `InvertedIndexInner` (the `index_path` field is file-system
bookkeeping and is not part of the logical state). -/

structure Bm25State where
  term_to_chunks : List (String × List String)
  chunk_tokens : List (String × List (String × Nat))
  total_token_count : Nat
deriving Repr, DecidableEq

def Bm25State.empty : Bm25State :=
  { term_to_chunks := [], chunk_tokens := [], total_token_count := 0 }

/-- `InvertedIndexInner::tokenize`: lowercase, replace every
non-alphanumeric character by a space, split on whitespace, keep tokens of
length > 2.  Rust `char::is_alphanumeric` is modelled by `Char.isAlphanum`
(they agree on ASCII).  After the replacement every whitespace character is
a space, so splitting on spaces and dropping the empty pieces models
`split_whitespace`; the empty pieces have length 0 and are removed by the
same length filter as the short tokens. -/
def splitOnSpace : List Char → List (List Char)
  | [] => [[]]
  | c :: rest =>
    if c = ' ' then [] :: splitOnSpace rest
    else
      match splitOnSpace rest with
      | [] => [[c]]
      | s :: ss => (c :: s) :: ss

def tokenize (text : String) : List String :=
  let replaced := text.toList.map (fun c =>
    let lc := c.toLower
    if lc.isAlphanum then lc else ' ')
  ((splitOnSpace replaced).map List.asString).filter (fun t => t.length > 2)

/-- One iteration of the token loop in `InvertedIndexInner::add_chunk`:
bump the term frequency and insert `chunk_id` into the posting set of the
token (`or_insert_with(HashSet::new)` followed by `insert`). -/
def addStep (chunk_id : String)
    (acc : List (String × Nat) × List (String × List String)) (token : String) :
    List (String × Nat) × List (String × List String) :=
  let tf := match alookup token acc.1 with
    | some n => ainsert token (n + 1) acc.1
    | none => ainsert token 1 acc.1
  let t2c := match alookup token acc.2 with
    | some s => ainsert token (sinsert chunk_id s) acc.2
    | none => ainsert token (sinsert chunk_id []) acc.2
  (tf, t2c)

/-- `InvertedIndexInner::add_chunk`. -/
def add_chunk (st : Bm25State) (chunk_id content : String) : Bm25State :=
  let tokens := tokenize content
  let res := tokens.foldl (addStep chunk_id) ([], st.term_to_chunks)
  { term_to_chunks := res.2
    chunk_tokens := ainsert chunk_id res.1 st.chunk_tokens
    total_token_count := st.total_token_count + tokens.length }

/-- One iteration of the token loop in `InvertedIndexInner::remove_chunk`:
subtract the count from the total (Nat subtraction is truncated, matching
`saturating_sub`), erase the chunk from the posting set of the token, and
drop the posting set if it became empty. -/
def removeStep (chunk_id : String) (s : Bm25State) (p : String × Nat) : Bm25State :=
  let s1 : Bm25State := { s with total_token_count := s.total_token_count - p.2 }
  match alookup p.1 s1.term_to_chunks with
  | some chunks =>
    let chunks1 := sremove chunk_id chunks
    if chunks1.isEmpty then
      { s1 with term_to_chunks := aerase p.1 s1.term_to_chunks }
    else
      { s1 with term_to_chunks := ainsert p.1 chunks1 s1.term_to_chunks }
  | none => s1

/-- `InvertedIndexInner::remove_chunk`. -/
def remove_chunk (st : Bm25State) (chunk_id : String) : Bm25State × Bool :=
  match alookup chunk_id st.chunk_tokens with
  | none => (st, false)
  | some tokens =>
    let st1 : Bm25State := { st with chunk_tokens := aerase chunk_id st.chunk_tokens }
    (tokens.foldl (removeStep chunk_id) st1, true)

/-- `InvertedIndexInner::has_chunk`. -/
def has_chunk (st : Bm25State) (chunk_id : String) : Bool :=
  (alookup chunk_id st.chunk_tokens).isSome

/-- `InvertedIndexInner::document_count` (`chunk_tokens.len()`). -/
def document_count (st : Bm25State) : Nat :=
  st.chunk_tokens.length

/-- `InvertedIndexInner::get_avg_doc_length`. -/
noncomputable def get_avg_doc_length (st : Bm25State) : ℝ :=
  if st.chunk_tokens.length > 0 then
    (st.total_token_count : ℝ) / (st.chunk_tokens.length : ℝ)
  else
    100.0

/-- Candidate gathering in `InvertedIndexInner::search`: the union of the
posting sets of the query tokens. -/
def searchCandidates (st : Bm25State) (query_tokens : List String) : List String :=
  query_tokens.foldl (fun acc token =>
    match alookup token st.term_to_chunks with
    | some chunks => chunks.foldl (fun a cid => sinsert cid a) acc
    | none => acc) []

/-- The BM25 score of one candidate chunk in `InvertedIndexInner::search`
(`k1` and `b` are the local bindings of the source). -/
noncomputable def chunkScore (st : Bm25State) (query_tokens : List String)
    (term_freq : List (String × Nat)) : ℝ :=
  let k1 : ℝ := 1.2
  let b : ℝ := 0.75
  let n : ℝ := (st.chunk_tokens.length : ℝ)
  let avg_doc_length := get_avg_doc_length st
  let doc_length : Nat := (term_freq.map (·.2)).sum
  query_tokens.foldl (fun score term =>
    let tfn : Nat := (alookup term term_freq).getD 0
    if tfn = 0 then score
    else
      let tf : ℝ := (tfn : ℝ)
      let df : ℝ := (((alookup term st.term_to_chunks).map List.length).getD 0 : ℝ)
      let idf := Real.log ((n - df + 0.5) / (df + 0.5) + 1.0)
      let tf_norm :=
        (tf * (k1 + 1.0)) / (tf + k1 * (1.0 - b + b * ((doc_length : ℝ) / avg_doc_length)))
      score + idf * tf_norm) 0

/-- `InvertedIndexInner::search`.  The `sort_by` over `partial_cmp` in
descending score order is modelled by a stable insertion sort with the
relation "left score is at least right score"; on real scores (no NaN)
both are the unique stable descending sort. -/
noncomputable def search (st : Bm25State) (query : String) : List (String × ℝ) :=
  let query_tokens := tokenize query
  if query_tokens.isEmpty then []
  else
    let candidate_chunks := searchCandidates st query_tokens
    let scores := candidate_chunks.foldl (fun acc chunk_id =>
      match alookup chunk_id st.chunk_tokens with
      | none => acc
      | some term_freq =>
        let score := chunkScore st query_tokens term_freq
        if score > 0 then acc ++ [(chunk_id, score)] else acc) []
    let max_score := (scores.map (·.2)).foldl max 1.0
    let normalized := scores.map (fun p => (p.1, p.2 / max_score))
    normalized.insertionSort (fun p q => q.2 ≤ p.2)


/-! ### Lemmas about add_chunk and remove_chunk -/


/-- The term-frequency half of `addStep`. -/
def bumpStep (tf : List (String × Nat)) (token : String) : List (String × Nat) :=
  match alookup token tf with
  | some n => ainsert token (n + 1) tf
  | none => ainsert token 1 tf

/-- The posting-set half of `addStep`. -/
def postStep (chunk_id : String) (t2c : List (String × List String)) (token : String) :
    List (String × List String) :=
  match alookup token t2c with
  | some s => ainsert token (sinsert chunk_id s) t2c
  | none => ainsert token (sinsert chunk_id []) t2c

/-- The term-frequency map that `add_chunk` builds for a token list. -/
def termFreqOf (tokens : List String) : List (String × Nat) :=
  tokens.foldl bumpStep []

theorem addStep_eq (cid : String) (acc : List (String × Nat) × List (String × List String))
    (t : String) : addStep cid acc t = (bumpStep acc.1 t, postStep cid acc.2 t) := rfl

theorem foldl_addStep_split (cid : String) (tokens : List String)
    (m : List (String × Nat)) (p : List (String × List String)) :
    tokens.foldl (addStep cid) (m, p) = (tokens.foldl bumpStep m, tokens.foldl (postStep cid) p) := by
  induction tokens generalizing m p with
  | nil => rfl
  | cons t rest ih => simp [List.foldl_cons, addStep_eq, ih]

/-- The posting set of a term (empty when the term is unknown). -/
def postingOf (t2c : List (String × List String)) (t : String) : List String :=
  (alookup t t2c).getD []

theorem postStep_preserves_mem (cid t tok : String) (p : List (String × List String))
    (h : cid ∈ postingOf p t) : cid ∈ postingOf (postStep cid p tok) t := by
  by_cases htk : tok = t
  · subst htk
    unfold postStep
    cases hl : alookup tok p with
    | none => simp [postingOf, alookup_ainsert_self]; exact smem_sinsert_self []
    | some s =>
      simp [postingOf, alookup_ainsert_self]
      exact smem_sinsert_self s
  · unfold postStep
    cases hl : alookup tok p with
    | none => simpa [postingOf, alookup_ainsert_ne tok t _ p (fun hh => htk hh.symm)] using h
    | some s => simpa [postingOf, alookup_ainsert_ne tok t _ p (fun hh => htk hh.symm)] using h

theorem postStep_self_mem (cid tok : String) (p : List (String × List String)) :
    cid ∈ postingOf (postStep cid p tok) tok := by
  unfold postStep
  cases hl : alookup tok p with
  | none => simp [postingOf, alookup_ainsert_self]; exact smem_sinsert_self []
  | some s => simp [postingOf, alookup_ainsert_self]; exact smem_sinsert_self s

theorem foldl_postStep_preserves_mem (cid t : String) (tokens : List String)
    (p : List (String × List String)) (h : cid ∈ postingOf p t) :
    cid ∈ postingOf (tokens.foldl (postStep cid) p) t := by
  induction tokens generalizing p with
  | nil => exact h
  | cons tok rest ih => exact ih _ (postStep_preserves_mem cid t tok p h)

theorem foldl_postStep_mem (cid : String) (tokens : List String) (t : String)
    (p : List (String × List String)) (ht : t ∈ tokens) :
    cid ∈ postingOf (tokens.foldl (postStep cid) p) t := by
  induction tokens generalizing p with
  | nil => cases ht
  | cons tok rest ih =>
    rcases List.mem_cons.mp ht with rfl | hrest
    · exact foldl_postStep_preserves_mem cid t rest _ (postStep_self_mem cid t p)
    · exact ih _ hrest

theorem foldl_postStep_not_mem (cid : String) (tokens : List String) (t : String)
    (p : List (String × List String)) (ht : t ∉ tokens) :
    alookup t (tokens.foldl (postStep cid) p) = alookup t p := by
  induction tokens generalizing p with
  | nil => rfl
  | cons tok rest ih =>
    have htok : t ≠ tok := fun h => ht (h ▸ List.mem_cons_self tok rest)
    have hrest : t ∉ rest := fun h => ht (List.mem_cons_of_mem tok h)
    rw [List.foldl_cons, ih _ hrest]
    unfold postStep
    cases alookup tok p with
    | none => exact alookup_ainsert_ne tok t _ p htok
    | some s => exact alookup_ainsert_ne tok t _ p htok

/-- Sum of the values of a term-frequency map. -/
def sumVals (tf : List (String × Nat)) : Nat :=
  (tf.map (·.2)).sum

def NodupKeys {β : Type} (l : List (String × β)) : Prop :=
  (l.map (·.1)).Nodup

theorem nodupkeys_aerase {β : Type} (k : String) (l : List (String × β)) (h : NodupKeys l) :
    NodupKeys (aerase k l) := by
  unfold NodupKeys at h ⊢
  exact List.Nodup.sublist (List.Sublist.map _ (List.filter_sublist l)) h

theorem not_mem_keys_aerase {β : Type} (k : String) (l : List (String × β)) :
    k ∉ (aerase k l).map (·.1) := by
  intro h
  rcases List.mem_map.mp h with ⟨p, hp, hpk⟩
  have := List.of_mem_filter hp
  simp [beq_iff_eq] at this
  exact this hpk

theorem nodupkeys_ainsert {β : Type} (k : String) (v : β) (l : List (String × β))
    (h : NodupKeys l) : NodupKeys (ainsert k v l) := by
  unfold NodupKeys
  rw [ainsert]
  simp only [List.map_cons]
  exact List.Nodup.cons (not_mem_keys_aerase k l) (nodupkeys_aerase k l h)

theorem sumVals_aerase (k : String) (n : Nat) (l : List (String × Nat))
    (h : NodupKeys l) (hl : alookup k l = some n) :
    sumVals l = n + sumVals (aerase k l) := by
  induction l with
  | nil => simp [alookup] at hl
  | cons p rest ih =>
    by_cases hp : p.1 = k
    · rw [alookup_cons, if_pos hp] at hl
      injection hl with hl
      have hk : k ∉ rest.map (·.1) := by
        have := h
        unfold NodupKeys at this
        simp only [List.map_cons, List.nodup_cons] at this
        rw [hp] at this
        exact this.1
      have : aerase k (p :: rest) = aerase k rest := by
        simp [aerase, List.filter_cons, beq_iff_eq, hp]
      rw [this]
      have : aerase k rest = rest := by
        refine List.filter_eq_self.mpr ?_
        intro q hq
        have : q.1 ≠ k := fun hqk => hk (List.mem_map.mpr ⟨q, hq, hqk⟩)
        simp [beq_iff_eq, this]
      rw [this, sumVals, List.map_cons, List.sum_cons, hl, sumVals]
    · rw [alookup_cons, if_neg hp] at hl
      have hnodup : NodupKeys rest := by
        unfold NodupKeys at h ⊢
        simp only [List.map_cons, List.nodup_cons] at h
        exact h.2
      have : aerase k (p :: rest) = p :: aerase k rest := by
        simp [aerase, List.filter_cons, beq_iff_eq, hp]
      rw [this, sumVals, sumVals, List.map_cons, List.map_cons, List.sum_cons, List.sum_cons]
      have := ih hnodup hl
      rw [sumVals, sumVals] at this
      omega

theorem sumVals_bumpStep (tf : List (String × Nat)) (t : String) (h : NodupKeys tf) :
    sumVals (bumpStep tf t) = sumVals tf + 1 := by
  unfold bumpStep
  split
  next n hl =>
    have key := sumVals_aerase t n tf h hl
    simp only [ainsert, sumVals, List.map_cons, List.sum_cons] at key ⊢
    omega
  next hl =>
    rw [ainsert, aerase_of_absent t tf hl]
    simp only [sumVals, List.map_cons, List.sum_cons]
    omega

theorem nodupkeys_bumpStep (tf : List (String × Nat)) (t : String) (h : NodupKeys tf) :
    NodupKeys (bumpStep tf t) := by
  unfold bumpStep
  cases alookup t tf with
  | none => exact nodupkeys_ainsert t 1 tf h
  | some n => exact nodupkeys_ainsert t (n + 1) tf h

theorem sumVals_foldl_bumpStep (tokens : List String) (tf : List (String × Nat))
    (h : NodupKeys tf) :
    sumVals (tokens.foldl bumpStep tf) = sumVals tf + tokens.length := by
  induction tokens generalizing tf with
  | nil => simp
  | cons t rest ih =>
    rw [List.foldl_cons, ih _ (nodupkeys_bumpStep tf t h), sumVals_bumpStep tf t h,
      List.length_cons]
    omega

theorem sumVals_termFreqOf (tokens : List String) :
    sumVals (termFreqOf tokens) = tokens.length := by
  have h0 : NodupKeys ([] : List (String × Nat)) := List.nodup_nil
  have := sumVals_foldl_bumpStep tokens [] h0
  simpa [termFreqOf, sumVals] using this



theorem sinsert_ne_nil {α : Type} [BEq α] (x : α) (s : List α) : sinsert x s ≠ [] := by
  rw [sinsert]
  by_cases h : s.contains x
  · rw [if_pos h]
    intro hnil
    subst hnil
    simp [List.contains] at h
  · rw [if_neg h]
    exact List.cons_ne_nil x s

/-- No posting set in the map is empty. -/
def NoEmptyPostings (t2c : List (String × List String)) : Prop :=
  ∀ t s, alookup t t2c = some s → s ≠ []

theorem noEmpty_postStep (cid tok : String) (p : List (String × List String))
    (h : NoEmptyPostings p) : NoEmptyPostings (postStep cid p tok) := by
  intro t s hl
  unfold postStep at hl
  by_cases ht : t = tok
  · subst ht
    cases hp : alookup t p with
    | none =>
      rw [hp, alookup_ainsert_self] at hl
      injection hl with hl
      exact hl ▸ sinsert_ne_nil cid []
    | some s0 =>
      rw [hp, alookup_ainsert_self] at hl
      injection hl with hl
      exact hl ▸ sinsert_ne_nil cid s0
  · cases hp : alookup tok p with
    | none =>
      rw [hp, alookup_ainsert_ne tok t _ p ht] at hl
      exact h t s hl
    | some s0 =>
      rw [hp, alookup_ainsert_ne tok t _ p ht] at hl
      exact h t s hl

theorem noEmpty_foldl_postStep (cid : String) (tokens : List String)
    (p : List (String × List String)) (h : NoEmptyPostings p) :
    NoEmptyPostings (tokens.foldl (postStep cid) p) := by
  induction tokens generalizing p with
  | nil => exact h
  | cons tok rest ih => exact ih _ (noEmpty_postStep cid tok p h)

theorem noEmpty_removeStep (cid : String) (s : Bm25State) (p : String × Nat)
    (h : NoEmptyPostings s.term_to_chunks) :
    NoEmptyPostings (removeStep cid s p).term_to_chunks := by
  intro t ps hl
  unfold removeStep at hl
  dsimp only at hl
  split at hl
  next chunks hp =>
    split at hl
    next he =>
      by_cases ht : t = p.1
      · rw [ht] at hl
        simp only [alookup_aerase_self] at hl
        cases hl
      · simp only [alookup_aerase_ne p.1 t _ ht] at hl
        exact h t ps hl
    next he =>
      by_cases ht : t = p.1
      · rw [ht] at hl
        simp only [alookup_ainsert_self] at hl
        injection hl with hl
        subst hl
        intro hnil
        rw [hnil] at he
        simp at he
      · simp only [alookup_ainsert_ne p.1 t _ _ ht] at hl
        exact h t ps hl
  next hp => exact h t ps hl

theorem noEmpty_foldl_removeStep (cid : String) (tokens : List (String × Nat))
    (s : Bm25State) (h : NoEmptyPostings s.term_to_chunks) :
    NoEmptyPostings (tokens.foldl (removeStep cid) s).term_to_chunks := by
  induction tokens generalizing s with
  | nil => exact h
  | cons p rest ih => exact ih _ (noEmpty_removeStep cid s p h)

theorem removeStep_chunk_tokens (cid : String) (s : Bm25State) (p : String × Nat) :
    (removeStep cid s p).chunk_tokens = s.chunk_tokens := by
  unfold removeStep
  dsimp only
  split
  next chunks hp => split <;> rfl
  next hp => rfl

theorem foldl_removeStep_chunk_tokens (cid : String) (tokens : List (String × Nat))
    (s : Bm25State) :
    (tokens.foldl (removeStep cid) s).chunk_tokens = s.chunk_tokens := by
  induction tokens generalizing s with
  | nil => rfl
  | cons p rest ih => rw [List.foldl_cons, ih, removeStep_chunk_tokens]

theorem removeStep_total (cid : String) (s : Bm25State) (p : String × Nat) :
    (removeStep cid s p).total_token_count = s.total_token_count - p.2 := by
  unfold removeStep
  dsimp only
  split
  next chunks hp => split <;> rfl
  next hp => rfl

theorem foldl_removeStep_total (cid : String) (tokens : List (String × Nat)) (s : Bm25State) :
    (tokens.foldl (removeStep cid) s).total_token_count =
      s.total_token_count - sumVals tokens := by
  induction tokens generalizing s with
  | nil => simp [sumVals]
  | cons p rest ih =>
    rw [List.foldl_cons, ih, removeStep_total]
    simp only [sumVals, List.map_cons, List.sum_cons]
    omega

/-- Complete characterization of the fields of `add_chunk`. -/
theorem add_chunk_fields (st : Bm25State) (id c : String) :
    (add_chunk st id c).chunk_tokens = ainsert id (termFreqOf (tokenize c)) st.chunk_tokens ∧
    (add_chunk st id c).term_to_chunks =
      (tokenize c).foldl (postStep id) st.term_to_chunks ∧
    (add_chunk st id c).total_token_count =
      st.total_token_count + (tokenize c).length := by
  unfold add_chunk
  dsimp only
  rw [foldl_addStep_split]
  exact ⟨rfl, rfl, rfl⟩


/-! ## Claims C3 and C4 -/

/-- Claim C3 (corrected).  `add_chunk(chunk_id, content)` overwrites the
`chunk_tokens` entry of `chunk_id` with the term-frequency map of the new
content and inserts `chunk_id` into the posting set of every token of the
new content, but it leaves the posting sets of all other terms unchanged
(so `chunk_id` stays in the posting sets of tokens occurring only in the
previously stored content) and it adds the new token count to
`total_token_count` without subtracting the old contribution. -/
theorem claim_C3_add_chunk_overwrite (st : Bm25State) (id c : String) :
    alookup id (add_chunk st id c).chunk_tokens = some (termFreqOf (tokenize c)) ∧
    (∀ t, t ∈ tokenize c → id ∈ postingOf (add_chunk st id c).term_to_chunks t) ∧
    (∀ t, t ∉ tokenize c →
      alookup t (add_chunk st id c).term_to_chunks = alookup t st.term_to_chunks) ∧
    (add_chunk st id c).total_token_count = st.total_token_count + (tokenize c).length := by
  obtain ⟨hct, ht2c, htot⟩ := add_chunk_fields st id c
  refine ⟨?_, ?_, ?_, htot⟩
  · rw [hct]
    exact alookup_ainsert_self id _ st.chunk_tokens
  · intro t ht
    rw [ht2c]
    exact foldl_postStep_mem id (tokenize c) t st.term_to_chunks ht
  · intro t ht
    rw [ht2c]
    exact foldl_postStep_not_mem id (tokenize c) t st.term_to_chunks ht

/-- Witness for C3 at a concrete input. -/
theorem claim_C3_witness :
    ("foo" ∈ tokenize "foo bar" ∧
      "aaa" ∈ postingOf (add_chunk Bm25State.empty "aaa" "foo bar").term_to_chunks "foo") ∧
    ("zzz" ∉ tokenize "foo bar" ∧
      alookup "zzz" (add_chunk Bm25State.empty "aaa" "foo bar").term_to_chunks =
        alookup "zzz" Bm25State.empty.term_to_chunks) :=
  ⟨⟨by decide,
    (claim_C3_add_chunk_overwrite Bm25State.empty "aaa" "foo bar").2.1 "foo" (by decide)⟩,
   ⟨by decide,
    (claim_C3_add_chunk_overwrite Bm25State.empty "aaa" "foo bar").2.2.1 "zzz" (by decide)⟩⟩

/-- The index state obtained by adding chunk `aaa` with content `foo bar`
and then re-adding it with content `baz`. -/
def reAddState : Bm25State :=
  add_chunk (add_chunk Bm25State.empty "aaa" "foo bar") "aaa" "baz"

/-- Counterexample to C3 as stated: after re-adding chunk `aaa` with the
new content `baz`, the id still sits in the posting set of `foo`, a token
occurring only in the old content, and `total_token_count` is 3, not the
new content token count 1. -/
theorem claim_C3_counterexample :
    "foo" ∉ tokenize "baz" ∧
    "aaa" ∈ postingOf reAddState.term_to_chunks "foo" ∧
    reAddState.total_token_count = 3 ∧
    (tokenize "baz").length = 1 := by decide

/-- Claim C4 (corrected).  When `id` is not already present,
`add_chunk(id, c)` followed by `remove_chunk(id)` restores
`document_count` and `total_token_count`, and no empty posting set
survives the removal (terms whose posting set becomes empty are
dropped). -/
theorem claim_C4_add_remove_restores (st : Bm25State) (id c : String)
    (h1 : alookup id st.chunk_tokens = none)
    (h2 : NoEmptyPostings st.term_to_chunks) :
    document_count (remove_chunk (add_chunk st id c) id).1 = document_count st ∧
    (remove_chunk (add_chunk st id c) id).1.total_token_count = st.total_token_count ∧
    NoEmptyPostings (remove_chunk (add_chunk st id c) id).1.term_to_chunks := by
  obtain ⟨hct, ht2c, htot⟩ := add_chunk_fields st id c
  have hlook : alookup id (add_chunk st id c).chunk_tokens =
      some (termFreqOf (tokenize c)) := by
    rw [hct]
    exact alookup_ainsert_self id _ st.chunk_tokens
  unfold remove_chunk
  rw [hlook]
  dsimp only
  constructor
  · rw [document_count, foldl_removeStep_chunk_tokens]
    dsimp only
    rw [hct, aerase_ainsert_of_absent id _ st.chunk_tokens h1]
    rfl
  constructor
  · rw [foldl_removeStep_total]
    dsimp only
    rw [htot, sumVals_termFreqOf]
    omega
  · apply noEmpty_foldl_removeStep
    dsimp only
    rw [ht2c]
    exact noEmpty_foldl_postStep id (tokenize c) st.term_to_chunks h2

/-- Witness for C4 at a concrete input. -/
theorem claim_C4_witness :
    alookup "aaa" Bm25State.empty.chunk_tokens = none ∧
    NoEmptyPostings Bm25State.empty.term_to_chunks ∧
    document_count (remove_chunk (add_chunk Bm25State.empty "aaa" "foo") "aaa").1 =
      document_count Bm25State.empty ∧
    (remove_chunk (add_chunk Bm25State.empty "aaa" "foo") "aaa").1.total_token_count =
      Bm25State.empty.total_token_count := by
  have hne : NoEmptyPostings Bm25State.empty.term_to_chunks := by
    intro t s h
    simp [Bm25State.empty, alookup] at h
  have := claim_C4_add_remove_restores Bm25State.empty "aaa" "foo" rfl hne
  exact ⟨rfl, hne, this.1, this.2.1⟩

/-- The index state containing the single chunk `aaa` with content
`foo bar`. -/
def preExistingState : Bm25State :=
  add_chunk Bm25State.empty "aaa" "foo bar"

/-- Counterexample to C4 as stated: starting from a state in which `aaa`
is already present, `add_chunk("aaa", "baz")` followed by
`remove_chunk("aaa")` ends with `document_count` 0, not the prior 1. -/
theorem claim_C4_counterexample :
    document_count preExistingState = 1 ∧
    document_count (remove_chunk (add_chunk preExistingState "aaa" "baz") "aaa").1 = 0 := by
  decide


/-! ## Claim C1: search score normalization and ordering -/

theorem le_foldl_max (l : List ℝ) (a : ℝ) :
    (∀ x ∈ l, x ≤ l.foldl max a) ∧ a ≤ l.foldl max a := by
  induction l generalizing a with
  | nil => exact ⟨by simp, le_refl a⟩
  | cons x xs ih =>
    rw [List.foldl_cons]
    refine ⟨?_, le_trans (le_max_left a x) (ih (max a x)).2⟩
    intro y hy
    rcases List.mem_cons.mp hy with rfl | hmem
    · exact le_trans (le_max_right a y) (ih (max a y)).2
    · exact (ih (max a x)).1 y hmem

/-- Claim C1 (corrected).  `search` never returns a score above 1.0 and
the result list is sorted in descending score order.  (The top score is
not always exactly 1.0: the maximum is folded starting from 1.0, so when
every raw BM25 score is below 1.0 the scores are divided by 1.0 and the
top result keeps its raw score; see the counterexample.) -/
theorem claim_C1_search_normalized (st : Bm25State) (q : String) :
    (∀ p ∈ search st q, p.2 ≤ 1) ∧
    (search st q).Sorted (fun a b : String × ℝ => b.2 ≤ a.2) := by
  unfold search
  by_cases hq : (tokenize q).isEmpty
  · simp [hq]
  · rw [if_neg hq]
    dsimp only
    set scores := (searchCandidates st (tokenize q)).foldl (fun acc chunk_id =>
      match alookup chunk_id st.chunk_tokens with
      | none => acc
      | some term_freq =>
        let score := chunkScore st (tokenize q) term_freq
        if score > 0 then acc ++ [(chunk_id, score)] else acc) [] with hscores
    set max_score := (scores.map (·.2)).foldl max 1.0 with hmax
    have hmax1 : (1.0 : ℝ) ≤ max_score := by
      rw [hmax]
      exact (le_foldl_max (scores.map (·.2)) 1.0).2
    have hmaxpos : (0 : ℝ) < max_score := lt_of_lt_of_le (by norm_num) hmax1
    haveI : IsTotal (String × ℝ) (fun a b : String × ℝ => b.2 ≤ a.2) :=
      ⟨fun a b => le_total b.2 a.2⟩
    haveI : IsTrans (String × ℝ) (fun a b : String × ℝ => b.2 ≤ a.2) :=
      ⟨fun a b c hab hbc => le_trans hbc hab⟩
    constructor
    · intro p hp
      have hperm := List.perm_insertionSort
        (fun a b : String × ℝ => b.2 ≤ a.2)
        (scores.map (fun p => (p.1, p.2 / max_score)))
      have hpmem : p ∈ scores.map (fun p => (p.1, p.2 / max_score)) := hperm.mem_iff.mp hp
      rcases List.mem_map.mp hpmem with ⟨r, hr, rfl⟩
      have hr2 : r.2 ∈ scores.map (·.2) := List.mem_map.mpr ⟨r, hr, rfl⟩
      have hle : r.2 ≤ max_score := by
        rw [hmax]
        exact (le_foldl_max (scores.map (·.2)) 1.0).1 r.2 hr2
      exact (div_le_one hmaxpos).mpr hle
    · exact List.sorted_insertionSort _ _


/-- The index state containing the single chunk `aaa` with content `foo`. -/
def oneDocState : Bm25State := add_chunk Bm25State.empty "aaa" "foo"

theorem oneDocState_eq :
    oneDocState = ⟨[("foo", ["aaa"])], [("aaa", [("foo", 1)])], 1⟩ := by decide

theorem chunkScore_oneDoc :
    chunkScore ⟨[("foo", ["aaa"])], [("aaa", [("foo", 1)])], 1⟩ ["foo"] [("foo", 1)] =
      Real.log (4 / 3) := by
  unfold chunkScore get_avg_doc_length
  dsimp only
  rw [List.foldl_cons, List.foldl_nil]
  rw [show alookup "foo" [("foo", (1 : Nat))] = some 1 from by decide]
  rw [show alookup "foo" [("foo", ["aaa"])] = some ["aaa"] from by decide]
  simp only [Option.getD_some]
  rw [if_neg (by decide : ¬ (1 : Nat) = 0)]
  simp only [Option.map_some', Option.getD_some, List.length_singleton, List.map_cons,
    List.map_nil, List.sum_cons, List.sum_nil]
  rw [if_pos (by norm_num : (1 : Nat) > 0)]
  push_cast
  have h43 : ((1 : ℝ) - 1 + 0.5) / (1 + 0.5) + 1.0 = 4 / 3 := by norm_num
  rw [h43]
  have htf : ((1 : ℝ) * (1.2 + 1.0) / (1 + 1.2 * (1.0 - 0.75 + 0.75 * (1 / (1 / 1))))) = 1 := by
    norm_num
  rw [htf]
  ring


theorem search_oneDoc : search oneDocState "foo" = [("aaa", Real.log (4 / 3))] := by
  rw [oneDocState_eq]
  unfold search
  rw [show tokenize "foo" = ["foo"] from by decide]
  rw [if_neg (by decide : ¬ (["foo"] : List String).isEmpty = true)]
  dsimp only
  rw [show searchCandidates ⟨[("foo", ["aaa"])], [("aaa", [("foo", 1)])], 1⟩ ["foo"] = ["aaa"]
    from by decide]
  rw [List.foldl_cons, List.foldl_nil]
  rw [show alookup "aaa" [("aaa", [("foo", (1 : Nat))])] = some [("foo", 1)] from by decide]
  dsimp only
  rw [chunkScore_oneDoc]
  rw [if_pos (Real.log_pos (by norm_num : (1 : ℝ) < 4 / 3))]
  simp only [List.nil_append, List.map_cons, List.map_nil, List.foldl_cons, List.foldl_nil]
  have hlog1 : Real.log (4 / 3) ≤ 1.0 :=
    le_trans (Real.log_le_sub_one_of_pos (by norm_num)) (by norm_num)
  rw [max_eq_left hlog1]
  have hdiv : Real.log (4 / 3) / 1.0 = Real.log (4 / 3) := by norm_num
  rw [hdiv]
  simp [List.insertionSort, List.orderedInsert]

/-- Counterexample to C1 as stated: on the index containing only chunk
`aaa` with content `foo`, `search("foo")` returns a non-empty list whose
first (and only) score is `log (4/3) < 1`, not `1.0`: the maximum used
for normalization is folded starting from `1.0`, so a raw maximum below
`1.0` is not scaled up. -/
theorem claim_C1_counterexample :
    (search oneDocState "foo").map Prod.snd = [Real.log (4 / 3)] ∧
    Real.log (4 / 3) < 1 := by
  constructor
  · rw [search_oneDoc]
    rfl
  · exact lt_of_le_of_lt (Real.log_le_sub_one_of_pos (by norm_num)) (by norm_num)

/-- Witness for C1 at a concrete input. -/
theorem claim_C1_witness :
    ("aaa", Real.log (4 / 3)) ∈ search oneDocState "foo" ∧ Real.log (4 / 3) ≤ 1 := by
  have hmem : ("aaa", Real.log (4 / 3)) ∈ search oneDocState "foo" := by
    rw [search_oneDoc]
    exact List.mem_singleton.mpr rfl
  exact ⟨hmem, (claim_C1_search_normalized oneDocState "foo").1 _ hmem⟩


/-! ## Catalog (src/native/src/db.rs)

Tables are lists of row structures; a SQL DELETE is a `filter`, a
SELECT a `filter`/`map`, and the upserts the corresponding conditional
update or append.  Blobs are lists of bytes. -/

structure EmbeddingRow where
  content_hash : String
  embedding : List Nat
  chunk_text : String
  model : String
  created_at : Nat
deriving Repr, DecidableEq

structure ChunkRow where
  chunk_id : String
  content_hash : String
  file_path : String
  start_line : Nat
  end_line : Nat
  node_type : Option String
  name : Option String
  language : String
deriving Repr, DecidableEq

structure SymbolRow where
  id : String
  file_path : String
  name : String
  kind : String
  start_line : Nat
  start_col : Nat
  end_line : Nat
  end_col : Nat
  language : String
deriving Repr, DecidableEq

structure CallEdgeRow where
  id : String
  from_symbol_id : String
  target_name : String
  to_symbol_id : Option String
  call_type : String
  line : Nat
  col : Nat
  is_resolved : Bool
deriving Repr, DecidableEq

/-- The catalog state: the tables created by `migrate_schema`.
`branch_chunks` and `branch_symbols` rows are (branch, id) pairs. -/
structure DbState where
  embeddings : List EmbeddingRow
  chunks : List ChunkRow
  branch_chunks : List (String × String)
  symbols : List SymbolRow
  call_edges : List CallEdgeRow
  branch_symbols : List (String × String)
  metadata : List (String × String)
deriving Repr, DecidableEq

/-- `SQL_BIND_PARAM_BATCH_SIZE` (900, below the 999 SQLite default). -/
def SQL_BIND_PARAM_BATCH_SIZE : Nat := 900

/-- `upsert_embedding`: `INSERT ... ON CONFLICT(content_hash) DO UPDATE
SET embedding = excluded.embedding, model = excluded.model`.  The
`strftime` call is modelled by the explicit `now` argument.  On conflict
only `embedding` and `model` are updated. -/
def upsert_embedding (db : DbState) (content_hash : String) (embedding : List Nat)
    (chunk_text model : String) (now : Nat) : DbState :=
  if db.embeddings.any (fun e => e.content_hash == content_hash) then
    { db with embeddings := db.embeddings.map (fun e =>
        if e.content_hash == content_hash then
          { e with embedding := embedding, model := model }
        else e) }
  else
    { db with embeddings :=
        db.embeddings ++ [⟨content_hash, embedding, chunk_text, model, now⟩] }

/-- `upsert_embeddings_batch`: the same statement executed once per tuple
inside one transaction. -/
def upsert_embeddings_batch (db : DbState)
    (embeddings : List (String × List Nat × String × String)) (now : Nat) : DbState :=
  if embeddings.isEmpty then db
  else
    embeddings.foldl (fun d e => upsert_embedding d e.1 e.2.1 e.2.2.1 e.2.2.2 now) db


/-- The partition of a parameter list into `IN (...)` batches of at most
`SQL_BIND_PARAM_BATCH_SIZE` elements (`slice::chunks(SQL_BIND_PARAM_BATCH_SIZE)`). -/
def toBatches (l : List String) : List (List String) :=
  if h : l = [] then []
  else
    l.take SQL_BIND_PARAM_BATCH_SIZE :: toBatches (l.drop SQL_BIND_PARAM_BATCH_SIZE)
termination_by l.length
decreasing_by
  simp only [List.length_drop, SQL_BIND_PARAM_BATCH_SIZE]
  have : 0 < l.length := List.length_pos.mpr h
  omega

/-- `get_missing_embeddings`: per batch,
`SELECT content_hash FROM embeddings WHERE content_hash IN (batch)`
collects into the `existing` set the batch hashes that have an embeddings
row; the result filters the input list by absence from `existing`. -/
def get_missing_embeddings (db : DbState) (content_hashes : List String) : List String :=
  if content_hashes.isEmpty then []
  else
    let existing := (toBatches content_hashes).foldl (fun acc batch =>
      acc ++ batch.filter (fun h => db.embeddings.any (fun e => e.content_hash == h))) []
    content_hashes.filter (fun h => !(existing.contains h))

structure BranchDelta where
  added : List String
  removed : List String
deriving Repr, DecidableEq

/-- `get_branch_delta`: two `NOT IN` queries over `branch_chunks`. -/
def get_branch_delta (db : DbState) (branch base_branch : String) : BranchDelta :=
  let branchIds := (db.branch_chunks.filter (fun p => p.1 == branch)).map (fun p => p.2)
  let baseIds := (db.branch_chunks.filter (fun p => p.1 == base_branch)).map (fun p => p.2)
  { added := branchIds.filter (fun c => !(baseIds.contains c))
    removed := baseIds.filter (fun c => !(branchIds.contains c)) }

/-- `gc_orphan_embeddings`:
`DELETE FROM embeddings WHERE content_hash NOT IN (SELECT DISTINCT content_hash FROM chunks)`. -/
def gc_orphan_embeddings (db : DbState) : DbState :=
  { db with embeddings := db.embeddings.filter (fun e =>
      db.chunks.any (fun c => c.content_hash == e.content_hash)) }

/-- `gc_orphan_symbols`: first
`DELETE FROM call_edges WHERE from_symbol_id NOT IN (SELECT DISTINCT symbol_id FROM branch_symbols)`,
then
`DELETE FROM symbols WHERE id NOT IN (SELECT DISTINCT symbol_id FROM branch_symbols)`. -/
def gc_orphan_symbols (db : DbState) : DbState :=
  let db1 : DbState := { db with call_edges := db.call_edges.filter (fun e =>
      (db.branch_symbols.map (fun p => p.2)).contains e.from_symbol_id) }
  { db1 with symbols := db1.symbols.filter (fun s =>
      (db1.branch_symbols.map (fun p => p.2)).contains s.id) }

/-! ## Claim C5: branch delta -/

theorem mem_idsOf (l : List (String × String)) (b x : String) :
    x ∈ (l.filter (fun p => p.1 == b)).map (fun p => p.2) ↔ (b, x) ∈ l := by
  simp only [List.mem_map, List.mem_filter, beq_iff_eq]
  constructor
  · rintro ⟨p, ⟨hp, hb⟩, hx⟩
    obtain ⟨p1, p2⟩ := p
    cases hb
    cases hx
    exact hp
  · intro h
    exact ⟨(b, x), ⟨h, rfl⟩, rfl⟩

theorem contains_eq_false_iff (ys : List String) (x : String) :
    (ys.contains x = false) ↔ x ∉ ys := by
  rw [Bool.eq_false_iff]
  exact not_congr List.elem_iff

/-- Claim C5 (confirmed).  `get_branch_delta(b, base)` returns as `added`
exactly the chunk ids on branch `b` and not on `base`, and as `removed`
exactly the chunk ids on `base` and not on `b`. -/
theorem claim_C5_branch_delta (db : DbState) (branch base : String) (x : String) :
    (x ∈ (get_branch_delta db branch base).added ↔
      ((branch, x) ∈ db.branch_chunks ∧ (base, x) ∉ db.branch_chunks)) ∧
    (x ∈ (get_branch_delta db branch base).removed ↔
      ((base, x) ∈ db.branch_chunks ∧ (branch, x) ∉ db.branch_chunks)) := by
  unfold get_branch_delta
  dsimp only
  constructor
  · rw [List.mem_filter, Bool.not_eq_true', contains_eq_false_iff, mem_idsOf, mem_idsOf]
  · rw [List.mem_filter, Bool.not_eq_true', contains_eq_false_iff, mem_idsOf, mem_idsOf]

/-! ## Claim C6: GC soundness -/

/-- Claim C6 (corrected).  After `gc_orphan_embeddings` every surviving
embedding hash occurs in some chunks row (unconditionally).  After
`gc_orphan_symbols` every surviving `call_edges.from_symbol_id` occurs in
`symbols`, provided the foreign-key invariant held before the GC (every
edge's `from_symbol_id` present in `symbols`); without that precondition
the statement fails, see the counterexample. -/
theorem claim_C6_gc_soundness :
    (∀ db : DbState, ∀ e ∈ (gc_orphan_embeddings db).embeddings,
      ∃ c ∈ (gc_orphan_embeddings db).chunks, c.content_hash = e.content_hash) ∧
    (∀ db : DbState,
      (∀ e ∈ db.call_edges, ∃ s ∈ db.symbols, s.id = e.from_symbol_id) →
      ∀ e ∈ (gc_orphan_symbols db).call_edges,
        ∃ s ∈ (gc_orphan_symbols db).symbols, s.id = e.from_symbol_id) := by
  constructor
  · intro db e he
    have := List.mem_filter.mp he
    obtain ⟨hmem, hany⟩ := this
    rcases List.any_eq_true.mp hany with ⟨c, hc, hcs⟩
    exact ⟨c, hc, beq_iff_eq.mp hcs⟩
  · intro db hfk e he
    unfold gc_orphan_symbols at he ⊢
    dsimp only at he ⊢
    obtain ⟨hmem, hbr⟩ := List.mem_filter.mp he
    rcases hfk e hmem with ⟨s, hs, hsid⟩
    refine ⟨s, List.mem_filter.mpr ⟨hs, ?_⟩, hsid⟩
    rw [hsid]
    exact hbr

/-- A small healthy catalog: one chunk referencing the only embedding. -/
def healthyDb : DbState :=
  { embeddings := [⟨"h1", [1], "txt", "m", 0⟩]
    chunks := [⟨"c1", "h1", "f.rs", 1, 2, none, none, "rust"⟩]
    branch_chunks := []
    symbols := []
    call_edges := []
    branch_symbols := []
    metadata := [] }

/-- Witness for C6 at a concrete input. -/
theorem claim_C6_witness :
    (∀ e ∈ healthyDb.call_edges, ∃ s ∈ healthyDb.symbols, s.id = e.from_symbol_id) ∧
    (⟨"h1", [1], "txt", "m", 0⟩ : EmbeddingRow) ∈ (gc_orphan_embeddings healthyDb).embeddings ∧
    (∃ c ∈ (gc_orphan_embeddings healthyDb).chunks, c.content_hash = "h1") := by
  have hfk : ∀ e ∈ healthyDb.call_edges, ∃ s ∈ healthyDb.symbols, s.id = e.from_symbol_id := by
    intro e he
    cases he
  have hmem : (⟨"h1", [1], "txt", "m", 0⟩ : EmbeddingRow) ∈
      (gc_orphan_embeddings healthyDb).embeddings := by decide
  refine ⟨hfk, hmem, ?_⟩
  exact claim_C6_gc_soundness.1 healthyDb ⟨"h1", [1], "txt", "m", 0⟩ hmem

/-- A catalog state with a call edge from symbol id `x` that is listed in
`branch_symbols` but has no `symbols` row (no foreign-key enforcement:
`PRAGMA foreign_keys` is never enabled in `init_db`). -/
def danglingEdgeDb : DbState :=
  { embeddings := [], chunks := [], branch_chunks := [], symbols := [],
    call_edges := [⟨"e1", "x", "tgt", none, "Call", 1, 0, false⟩],
    branch_symbols := [("main", "x")], metadata := [] }

/-- Counterexample to C6 as stated: on `danglingEdgeDb`,
`gc_orphan_symbols` keeps the edge (its `from_symbol_id` is in
`branch_symbols`) while `symbols` stays empty, so the surviving edge's
`from_symbol_id` occurs in no symbols row. -/
theorem claim_C6_counterexample :
    (gc_orphan_symbols danglingEdgeDb).call_edges =
      [⟨"e1", "x", "tgt", none, "Call", 1, 0, false⟩] ∧
    (gc_orphan_symbols danglingEdgeDb).symbols = [] := by decide

/-! ## Claim C7: get_missing_embeddings -/

theorem toBatches_length_le (l : List String) :
    ∀ batch ∈ toBatches l, batch.length ≤ SQL_BIND_PARAM_BATCH_SIZE := by
  induction l using toBatches.induct with
  | case1 => intro batch hb; rw [toBatches] at hb; simp at hb
  | case2 l hne ih =>
    intro batch hb
    rw [toBatches, dif_neg hne] at hb
    rcases List.mem_cons.mp hb with rfl | hmem
    · exact List.length_take_le _ _
    · exact ih batch hmem

theorem toBatches_join (l : List String) : (toBatches l).flatten = l := by
  induction l using toBatches.induct with
  | case1 => rw [toBatches]; simp
  | case2 l hne ih =>
    rw [toBatches, dif_neg hne]
    rw [List.flatten_cons, ih, List.take_append_drop]

theorem foldl_append_eq {α β : Type} (f : β → List α) (bs : List β) (acc : List α) :
    bs.foldl (fun a b => a ++ f b) acc = acc ++ (bs.map f).flatten := by
  induction bs generalizing acc with
  | nil => simp
  | cons b rest ih => simp [ih, List.append_assoc]

/-- Claim C7 (confirmed).  `get_missing_embeddings(hashes)` returns
exactly the input hashes with no embeddings row, in input order (it is the
filter of the input list by absence), and every `IN (...)` batch carries
at most `SQL_BIND_PARAM_BATCH_SIZE` = 900 bind parameters. -/
theorem claim_C7_missing_embeddings :
    (∀ (db : DbState) (hashes : List String),
      get_missing_embeddings db hashes =
        hashes.filter (fun h => !(db.embeddings.any (fun e => e.content_hash == h)))) ∧
    (∀ (hashes : List String), ∀ batch ∈ toBatches hashes,
      batch.length ≤ SQL_BIND_PARAM_BATCH_SIZE) := by
  refine ⟨?_, fun hashes => toBatches_length_le hashes⟩
  intro db hashes
  unfold get_missing_embeddings
  by_cases hne : hashes.isEmpty
  · rw [if_pos hne]
    rw [List.isEmpty_iff] at hne
    subst hne
    rfl
  · rw [if_neg hne]
    dsimp only
    rw [foldl_append_eq]
    rw [List.nil_append]
    refine List.filter_congr ?_
    intro x hx
    have hmemiff : (x ∈ ((toBatches hashes).map (fun batch =>
        batch.filter (fun h => db.embeddings.any (fun e => e.content_hash == h)))).flatten) ↔
        (db.embeddings.any (fun e => e.content_hash == x) = true) := by
      rw [List.mem_flatten]
      constructor
      · rintro ⟨b, hb, hxb⟩
        rcases List.mem_map.mp hb with ⟨batch, _, rfl⟩
        exact (List.mem_filter.mp hxb).2
      · intro hany
        have hxj : x ∈ (toBatches hashes).flatten := by rw [toBatches_join]; exact hx
        rcases List.mem_flatten.mp hxj with ⟨batch, hbatch, hxbatch⟩
        refine ⟨batch.filter (fun h => db.embeddings.any (fun e => e.content_hash == h)),
          List.mem_map.mpr ⟨batch, hbatch, rfl⟩, List.mem_filter.mpr ⟨hxbatch, hany⟩⟩
    have hcontains : (((toBatches hashes).map (fun batch =>
        batch.filter (fun h => db.embeddings.any (fun e => e.content_hash == h)))).flatten).contains x =
        db.embeddings.any (fun e => e.content_hash == x) := by
      by_cases hany : db.embeddings.any (fun e => e.content_hash == x) = true
      · rw [hany]
        exact List.elem_iff.mpr (hmemiff.mpr hany)
      · rw [Bool.eq_false_iff.mpr hany, Bool.eq_false_iff]
        intro ht
        exact hany (hmemiff.mp (List.elem_iff.mp ht))
    rw [hcontains]

/-- Witness for C7 at a concrete input. -/
theorem claim_C7_witness :
    (["aaa"] ∈ toBatches ["aaa"]) ∧
    (["aaa"] : List String).length ≤ SQL_BIND_PARAM_BATCH_SIZE ∧
    get_missing_embeddings healthyDb ["aaa", "h1"] = ["aaa"] := by
  have h1 : List.take SQL_BIND_PARAM_BATCH_SIZE ["aaa"] = ["aaa"] := by decide
  have h2 : List.drop SQL_BIND_PARAM_BATCH_SIZE ["aaa"] = ([] : List String) := by decide
  have hb : toBatches ["aaa"] = [["aaa"]] := by
    rw [toBatches, dif_neg (by decide : ¬ (["aaa"] : List String) = []), h1, h2, toBatches]
    rw [dif_pos rfl]
  have hmem : ["aaa"] ∈ toBatches ["aaa"] := by
    rw [hb]
    exact List.mem_singleton.mpr rfl
  refine ⟨hmem, claim_C7_missing_embeddings.2 ["aaa"] ["aaa"] hmem, ?_⟩
  rw [claim_C7_missing_embeddings.1 healthyDb ["aaa", "h1"]]
  decide

/-! ## Claim C8: embedding upsert preserves chunk_text -/

/-- `SELECT ... FROM embeddings WHERE content_hash = ?` (first match). -/
def embLookup (db : DbState) (h : String) : Option EmbeddingRow :=
  db.embeddings.find? (fun e => e.content_hash == h)

theorem find?_update_map (l : List EmbeddingRow) (hsh : String) (e : List Nat) (m : String)
    (r : EmbeddingRow) (hr : l.find? (fun x => x.content_hash == hsh) = some r) :
    (l.map (fun x => if x.content_hash == hsh then { x with embedding := e, model := m } else x)).find?
        (fun x => x.content_hash == hsh) = some { r with embedding := e, model := m } := by
  induction l with
  | nil => simp at hr
  | cons x rest ih =>
    by_cases hx : x.content_hash = hsh
    · have hb : (x.content_hash == hsh) = true := by simp [beq_iff_eq, hx]
      rw [@List.find?_cons_of_pos EmbeddingRow (fun y => y.content_hash == hsh) x rest hb] at hr
      injection hr with hr
      subst hr
      rw [List.map_cons, if_pos hb]
      exact @List.find?_cons_of_pos EmbeddingRow (fun y => y.content_hash == hsh) _ _ hb
    · have hb : ¬ ((x.content_hash == hsh) = true) := by simp [beq_iff_eq, hx]
      rw [@List.find?_cons_of_neg EmbeddingRow (fun y => y.content_hash == hsh) x rest hb] at hr
      rw [List.map_cons, if_neg hb]
      rw [@List.find?_cons_of_neg EmbeddingRow (fun y => y.content_hash == hsh) x _ hb]
      exact ih hr

theorem find?_update_map_ne (l : List EmbeddingRow) (hsh hsh2 : String) (e : List Nat)
    (m : String) (hne : hsh ≠ hsh2) :
    (l.map (fun x => if x.content_hash == hsh2 then { x with embedding := e, model := m } else x)).find?
        (fun x => x.content_hash == hsh) = l.find? (fun x => x.content_hash == hsh) := by
  induction l with
  | nil => rfl
  | cons x rest ih =>
    rw [List.map_cons]
    by_cases hx : x.content_hash = hsh
    · have hne2 : ¬ x.content_hash = hsh2 := fun hc => hne (hx ▸ hc)
      have hb : (x.content_hash == hsh) = true := by simp [beq_iff_eq, hx]
      rw [if_neg (by simp [beq_iff_eq, hne2])]
      rw [@List.find?_cons_of_pos EmbeddingRow (fun y => y.content_hash == hsh) x _ hb,
        @List.find?_cons_of_pos EmbeddingRow (fun y => y.content_hash == hsh) x rest hb]
    · have hb : ¬ ((x.content_hash == hsh) = true) := by simp [beq_iff_eq, hx]
      by_cases hx2 : x.content_hash = hsh2
      · rw [if_pos (by simp [beq_iff_eq, hx2])]
        have hb2 : ¬ (({ x with embedding := e, model := m } :
            EmbeddingRow).content_hash == hsh) = true := hb
        rw [@List.find?_cons_of_neg EmbeddingRow (fun y => y.content_hash == hsh) _ _ hb2,
          @List.find?_cons_of_neg EmbeddingRow (fun y => y.content_hash == hsh) x rest hb]
        exact ih
      · rw [if_neg (by simp [beq_iff_eq, hx2])]
        rw [@List.find?_cons_of_neg EmbeddingRow (fun y => y.content_hash == hsh) x _ hb,
          @List.find?_cons_of_neg EmbeddingRow (fun y => y.content_hash == hsh) x rest hb]
        exact ih

theorem find?_append_none (l : List EmbeddingRow) (new : EmbeddingRow) (hsh : String)
    (hnew : (new.content_hash == hsh) = false) :
    (l ++ [new]).find? (fun x => x.content_hash == hsh) =
      l.find? (fun x => x.content_hash == hsh) := by
  induction l with
  | nil => simp [List.find?, hnew]
  | cons x rest ih =>
    by_cases hx : (x.content_hash == hsh) = true
    · rw [List.cons_append,
        @List.find?_cons_of_pos EmbeddingRow (fun y => y.content_hash == hsh) x _ hx,
        @List.find?_cons_of_pos EmbeddingRow (fun y => y.content_hash == hsh) x rest hx]
    · rw [List.cons_append,
        @List.find?_cons_of_neg EmbeddingRow (fun y => y.content_hash == hsh) x _ hx,
        @List.find?_cons_of_neg EmbeddingRow (fun y => y.content_hash == hsh) x rest hx]
      exact ih

/-- Upserting hash `h` rewrites the stored row for `h`: `chunk_text` and
`created_at` are untouched, `embedding` and `model` are replaced. -/
theorem upsert_embedding_existing (db : DbState) (hsh : String) (e : List Nat)
    (t m : String) (now : Nat) (r : EmbeddingRow) (hr : embLookup db hsh = some r) :
    embLookup (upsert_embedding db hsh e t m now) hsh =
      some { r with embedding := e, model := m } := by
  have hr2 : db.embeddings.find? (fun x => x.content_hash == hsh) = some r := hr
  have hpred : (r.content_hash == hsh) = true :=
    @List.find?_some EmbeddingRow (fun x => x.content_hash == hsh) r db.embeddings hr2
  have hmem : r ∈ db.embeddings := List.mem_of_find?_eq_some hr2
  have hany : db.embeddings.any (fun x => x.content_hash == hsh) = true :=
    List.any_eq_true.mpr ⟨r, hmem, hpred⟩
  unfold upsert_embedding embLookup
  rw [if_pos hany]
  exact find?_update_map db.embeddings hsh e m r hr2

/-- Upserting a different hash leaves the row for `h` unchanged. -/
theorem upsert_embedding_other (db : DbState) (hsh hsh2 : String) (e : List Nat)
    (t m : String) (now : Nat) (hne : hsh ≠ hsh2) :
    embLookup (upsert_embedding db hsh2 e t m now) hsh = embLookup db hsh := by
  unfold upsert_embedding embLookup
  by_cases hany : db.embeddings.any (fun x => x.content_hash == hsh2) = true
  · rw [if_pos hany]
    exact find?_update_map_ne db.embeddings hsh hsh2 e m hne
  · rw [if_neg hany]
    exact find?_append_none db.embeddings _ hsh (by simp [beq_iff_eq]; exact fun hc => hne hc.symm)

/-- Folding upserts whose hashes all differ from `h` leaves the row for
`h` untouched. -/
theorem foldl_upsert_other (entries : List (String × List Nat × String × String))
    (db : DbState) (hsh : String) (now : Nat) (hall : ∀ q ∈ entries, q.1 ≠ hsh) :
    embLookup (entries.foldl (fun d q => upsert_embedding d q.1 q.2.1 q.2.2.1 q.2.2.2 now) db)
        hsh = embLookup db hsh := by
  induction entries generalizing db with
  | nil => rfl
  | cons q rest ih =>
    rw [List.foldl_cons]
    rw [ih _ (fun p hp => hall p (List.mem_cons_of_mem q hp))]
    exact upsert_embedding_other db hsh q.1 q.2.1 q.2.2.1 q.2.2.2 now
      (fun hc => hall q (List.mem_cons_self q rest) hc.symm)

/-- Folding arbitrary upserts preserves existence, `content_hash`,
`chunk_text` and `created_at` of the row for `h`. -/
theorem foldl_upsert_frame (entries : List (String × List Nat × String × String))
    (db : DbState) (hsh : String) (now : Nat) (r : EmbeddingRow)
    (hr : embLookup db hsh = some r) :
    ∃ r1, embLookup
        (entries.foldl (fun d q => upsert_embedding d q.1 q.2.1 q.2.2.1 q.2.2.2 now) db) hsh =
        some r1 ∧
      r1.content_hash = r.content_hash ∧ r1.chunk_text = r.chunk_text ∧
      r1.created_at = r.created_at := by
  induction entries generalizing db r with
  | nil => exact ⟨r, hr, rfl, rfl, rfl⟩
  | cons q rest ih =>
    rw [List.foldl_cons]
    by_cases hq : q.1 = hsh
    · subst hq
      have hstep := upsert_embedding_existing db q.1 q.2.1 q.2.2.1 q.2.2.2 now r hr
      rcases ih (upsert_embedding db q.1 q.2.1 q.2.2.1 q.2.2.2 now)
          { r with embedding := q.2.1, model := q.2.2.2 } hstep with
        ⟨r1, hfind, h1, h2, h3⟩
      exact ⟨r1, hfind, h1, h2, h3⟩
    · have heq := upsert_embedding_other db hsh q.1 q.2.1 q.2.2.1 q.2.2.2 now
        (fun hc => hq hc.symm)
      rcases ih (upsert_embedding db q.1 q.2.1 q.2.2.1 q.2.2.2 now) r (heq.symm ▸ hr) with
        ⟨r1, hfind, h1, h2, h3⟩
      exact ⟨r1, hfind, h1, h2, h3⟩

/-- Claim C8 (confirmed).  When a row for `content_hash` already exists,
`upsert_embedding` (and `upsert_embeddings_batch`, here stated for a batch
whose last entry for that hash is explicit) leaves `chunk_text` (and
`created_at`) unchanged and overwrites `embedding` and `model` with the
newly supplied values. -/
theorem claim_C8_upsert_keeps_chunk_text :
    (∀ (db : DbState) (hsh : String) (e : List Nat) (t m : String) (now : Nat)
        (r : EmbeddingRow), embLookup db hsh = some r →
      embLookup (upsert_embedding db hsh e t m now) hsh =
        some { r with embedding := e, model := m }) ∧
    (∀ (db : DbState) (pre post : List (String × List Nat × String × String))
        (hsh : String) (e : List Nat) (t m : String) (now : Nat) (r : EmbeddingRow),
      embLookup db hsh = some r → (∀ q ∈ post, q.1 ≠ hsh) →
      embLookup (upsert_embeddings_batch db (pre ++ (hsh, e, t, m) :: post) now) hsh =
        some { r with embedding := e, model := m }) := by
  refine ⟨fun db hsh e t m now r hr => upsert_embedding_existing db hsh e t m now r hr, ?_⟩
  intro db pre post hsh e t m now r hr hpost
  unfold upsert_embeddings_batch
  rw [if_neg (by simp : ¬ (pre ++ (hsh, e, t, m) :: post).isEmpty = true)]
  rw [List.foldl_append, List.foldl_cons]
  rcases foldl_upsert_frame pre db hsh now r hr with ⟨r1, hfind1, hc, ht, hca⟩
  have hstep := upsert_embedding_existing _ hsh e t m now r1 hfind1
  have heq : ({ r1 with embedding := e, model := m } : EmbeddingRow) =
      { r with embedding := e, model := m } := by
    cases r1
    cases r
    simp_all
  rw [heq] at hstep
  rw [foldl_upsert_other post _ hsh now hpost]
  exact hstep

/-- Witness for C8 at a concrete input. -/
theorem claim_C8_witness :
    embLookup healthyDb "h1" = some ⟨"h1", [1], "txt", "m", 0⟩ ∧
    (∀ q ∈ ([] : List (String × List Nat × String × String)), q.1 ≠ "h1") ∧
    embLookup (upsert_embedding healthyDb "h1" [2] "other" "m2" 5) "h1" =
      some ⟨"h1", [2], "txt", "m2", 0⟩ ∧
    embLookup (upsert_embeddings_batch healthyDb
        ([] ++ ("h1", [2], "other", "m2") :: []) 5) "h1" =
      some ⟨"h1", [2], "txt", "m2", 0⟩ := by
  have hr : embLookup healthyDb "h1" = some ⟨"h1", [1], "txt", "m", 0⟩ := by decide
  have hpost : ∀ q ∈ ([] : List (String × List Nat × String × String)), q.1 ≠ "h1" :=
    fun q hq => absurd hq (List.not_mem_nil q)
  refine ⟨hr, hpost, ?_, ?_⟩
  · exact claim_C8_upsert_keeps_chunk_text.1 healthyDb "h1" [2] "other" "m2" 5 _ hr
  · exact claim_C8_upsert_keeps_chunk_text.2 healthyDb [] [] "h1" [2] "other" "m2" 5 _ hr hpost

/-! ## Vector store (src/native/src/store.rs)

`VectorStoreInner` wraps a usearch HNSW index (contents modelled as a
list of (id, vector) pairs plus a capacity) and the `StoredMetadata`
sidecar maps.  Vector components are modelled as rationals (only lengths
and identities matter for the claims); `index.remove`/`index.add` of
usearch are modelled as total operations on the content list, and the
approximate `index.search` as an oracle result list passed in.  Fallible
operations return `Except`, mirroring `Result`; every error the source
returns before touching `self` is returned here before any state
change. -/

structure StoreState where
  key_to_id : List (String × Nat)
  id_to_key : List (Nat × String)
  metadata : List (String × String)
  next_id : Nat
  index : List (Nat × List ℚ)
  capacity : Nat
  dimensions : Nat
deriving Repr, DecidableEq

/-- A fresh store (`VectorStoreInner::new` without an existing file). -/
def StoreState.new (dimensions : Nat) : StoreState :=
  { key_to_id := [], id_to_key := [], metadata := [], next_id := 0,
    index := [], capacity := 0, dimensions := dimensions }

/-- `VectorStoreInner::add`. -/
def storeAdd (st : StoreState) (key : String) (vector : List ℚ) (meta : String) :
    Except String StoreState :=
  if vector.length ≠ st.dimensions then
    .error "Vector dimension mismatch"
  else
    let st1 : StoreState :=
      match alookup key st.key_to_id with
      | some existing_id =>
        { st with index := st.index.filter (fun p => !(p.1 == existing_id))
                  id_to_key := aerase existing_id st.id_to_key }
      | none => st
    let id := st1.next_id
    let st2 : StoreState := { st1 with next_id := st1.next_id + 1 }
    let new_capacity : Nat :=
      if st2.capacity ≤ st2.index.length then max (st2.capacity * 2) 1024
      else st2.capacity
    let st3 : StoreState := { st2 with capacity := new_capacity }
    let st4 : StoreState := { st3 with index := st3.index ++ [(id, vector)] }
    .ok { st4 with id_to_key := ainsert id key st4.id_to_key
                   key_to_id := ainsert key id st4.key_to_id
                   metadata := ainsert key meta st4.metadata }

/-- The removal loop of `VectorStoreInner::add_batch`: for each existing
id, remove it from the index, and when `id_to_key.remove(&id)` yields a
key, remove that key from `key_to_id`. -/
def batchRemoveStep (s : StoreState) (id : Nat) : StoreState :=
  let s1 : StoreState := { s with index := s.index.filter (fun p => !(p.1 == id)) }
  match alookup id s1.id_to_key with
  | some key =>
    { s1 with id_to_key := aerase id s1.id_to_key
              key_to_id := aerase key s1.key_to_id }
  | none => s1

/-- The mapping-update loop of `VectorStoreInner::add_batch`
(`for (i, key) in keys.iter().enumerate()`). -/
def batchInsertStep (start_id : Nat) (s : StoreState) (ik : Nat × String × String) :
    StoreState :=
  let id := start_id + ik.1
  { s with id_to_key := ainsert id ik.2.1 s.id_to_key
           key_to_id := ainsert ik.2.1 id s.key_to_id
           metadata := ainsert ik.2.1 ik.2.2 s.metadata }

/-- `VectorStoreInner::add_batch`.  In-range insertions into the reserved
index always succeed in this model, so the atomic failure counter stays
zero and the batch takes its success path. -/
def storeAddBatch (st : StoreState) (keys : List String) (vectors : List (List ℚ))
    (metadata : List String) : Except String StoreState :=
  if keys.length ≠ vectors.length ∨ keys.length ≠ metadata.length then
    .error "Mismatched batch sizes"
  else if keys.length = 0 then
    .ok st
  else if vectors.any (fun v => v.length ≠ st.dimensions) then
    .error "Vector dimension mismatch"
  else
    let existing_ids := keys.filterMap (fun key => alookup key st.key_to_id)
    let st1 := existing_ids.foldl batchRemoveStep st
    let st2 : StoreState :=
      { st1 with capacity := max st1.capacity (st1.index.length + keys.length) }
    let start_id := st2.next_id
    let ids := (List.range keys.length).map (fun i => start_id + i)
    let st3 : StoreState := { st2 with index := st2.index ++ ids.zip vectors }
    let st4 := ((keys.zip metadata).enum).foldl (batchInsertStep start_id) st3
    .ok { st4 with next_id := start_id + keys.length }

/-- `VectorStoreInner::search`.  `raw` is the (id, distance) list returned
by the underlying approximate index search for this query and limit. -/
def storeSearch (st : StoreState) (query_vector : List ℚ) (raw : List (Nat × ℚ)) :
    Except String (List (String × ℚ × String)) :=
  if query_vector.length ≠ st.dimensions then
    .error "Query vector dimension mismatch"
  else
    .ok (raw.foldl (fun acc p =>
      match alookup p.1 st.id_to_key with
      | some key => acc ++ [(key, 1 - p.2, (alookup key st.metadata).getD "")]
      | none => acc) [])

/-- `VectorStoreInner::remove`. -/
def storeRemove (st : StoreState) (key : String) : Except String (StoreState × Bool) :=
  match alookup key st.key_to_id with
  | some id =>
    .ok ({ st with index := st.index.filter (fun p => !(p.1 == id))
                   id_to_key := aerase id st.id_to_key
                   key_to_id := aerase key st.key_to_id
                   metadata := aerase key st.metadata }, true)
  | none => .ok (st, false)

/-- `VectorStoreInner::clear`: rebuild an empty index with the same
parameters and reset the sidecar maps (`StoredMetadata::default()`, so
`next_id` restarts at 0). -/
def storeClear (st : StoreState) : Except String StoreState :=
  .ok { key_to_id := [], id_to_key := [], metadata := [], next_id := 0,
        index := [], capacity := 0, dimensions := st.dimensions }

/-! ## Claim C9: dimension check before mutation -/

/-- Claim C9 (confirmed).  In `add`, `add_batch` and `search` the
dimension checks are the first statements of the source functions, before
any mutation; whenever a supplied vector has the wrong length the call
returns an error (for `add_batch`, possibly the batch-size-mismatch error
when the input lengths disagree), and no state change is produced. -/
theorem claim_C9_dimension_error :
    (∀ (st : StoreState) (key : String) (v : List ℚ) (m : String),
      v.length ≠ st.dimensions →
      storeAdd st key v m = .error "Vector dimension mismatch") ∧
    (∀ (st : StoreState) (keys : List String) (vectors : List (List ℚ))
        (metadata : List String),
      (∃ v ∈ vectors, v.length ≠ st.dimensions) →
      ∃ msg, storeAddBatch st keys vectors metadata = .error msg) ∧
    (∀ (st : StoreState) (q : List ℚ) (raw : List (Nat × ℚ)),
      q.length ≠ st.dimensions →
      storeSearch st q raw = .error "Query vector dimension mismatch") := by
  refine ⟨?_, ?_, ?_⟩
  · intro st key v m hv
    unfold storeAdd
    rw [if_pos hv]
  · intro st keys vectors metadata hbad
    unfold storeAddBatch
    by_cases hsz : keys.length ≠ vectors.length ∨ keys.length ≠ metadata.length
    · rw [if_pos hsz]
      exact ⟨"Mismatched batch sizes", rfl⟩
    · rw [if_neg hsz]
      push_neg at hsz
      have hvne : vectors ≠ [] := by
        rintro rfl
        rcases hbad with ⟨v, hv, _⟩
        cases hv
      have hk0 : ¬ keys.length = 0 := by
        intro h0
        rw [h0] at hsz
        exact hvne (List.eq_nil_of_length_eq_zero hsz.1.symm)
      rw [if_neg hk0]
      have hany : vectors.any (fun v => v.length ≠ st.dimensions) = true := by
        rcases hbad with ⟨v, hv, hvd⟩
        exact List.any_eq_true.mpr ⟨v, hv, by simp [hvd]⟩
      rw [if_pos hany]
      exact ⟨"Vector dimension mismatch", rfl⟩
  · intro st q raw hq
    unfold storeSearch
    rw [if_pos hq]

/-- Witness for C9 at concrete inputs. -/
theorem claim_C9_witness :
    (([1] : List ℚ).length ≠ (StoreState.new 2).dimensions ∧
      storeAdd (StoreState.new 2) "aaa" [1] "m" = .error "Vector dimension mismatch") ∧
    ((∃ v ∈ [([1] : List ℚ)], v.length ≠ (StoreState.new 2).dimensions) ∧
      ∃ msg, storeAddBatch (StoreState.new 2) ["aaa"] [[1]] ["m"] = .error msg) ∧
    (([1] : List ℚ).length ≠ (StoreState.new 2).dimensions ∧
      storeSearch (StoreState.new 2) [1] [] = .error "Query vector dimension mismatch") := by
  have hlen : ([1] : List ℚ).length ≠ (StoreState.new 2).dimensions := by decide
  have hex : ∃ v ∈ [([1] : List ℚ)], v.length ≠ (StoreState.new 2).dimensions :=
    ⟨[1], List.mem_singleton.mpr rfl, hlen⟩
  exact ⟨⟨hlen, claim_C9_dimension_error.1 (StoreState.new 2) "aaa" [1] "m" hlen⟩,
    ⟨hex, claim_C9_dimension_error.2.1 (StoreState.new 2) ["aaa"] [[1]] ["m"] hex⟩,
    ⟨hlen, claim_C9_dimension_error.2.2 (StoreState.new 2) [1] [] hlen⟩⟩

/-! ## Claim C10: sidecar map invariants -/

/-- The sidecar invariant: `key_to_id` and `id_to_key` are mutual
inverses and `next_id` exceeds every id recorded in them. -/
def StoreInv (st : StoreState) : Prop :=
  (∀ k i, alookup k st.key_to_id = some i ↔ alookup i st.id_to_key = some k) ∧
  (∀ k i, alookup k st.key_to_id = some i → i < st.next_id)

theorem inv_insert_fresh (kt : List (String × Nat)) (it : List (Nat × String))
    (key : String) (n : Nat)
    (hiff : ∀ k i, alookup k kt = some i ↔ alookup i it = some k)
    (hb : ∀ k i, alookup k kt = some i → i < n)
    (hkey : alookup key kt = none) :
    ∀ k i, alookup k (ainsert key n kt) = some i ↔ alookup i (ainsert n key it) = some k := by
  intro k i
  by_cases hk : k = key
  · rw [hk, alookup_ainsert_self]
    by_cases hi : i = n
    · rw [hi, alookup_ainsert_self]
      simp
    · rw [alookup_ainsert_ne n i key it hi]
      constructor
      · intro h
        injection h with h
        exact absurd h.symm hi
      · intro h
        have h2 := (hiff key i).mpr (hk ▸ h)
        rw [hkey] at h2
        cases h2
  · rw [alookup_ainsert_ne key k n kt hk]
    by_cases hi : i = n
    · rw [hi, alookup_ainsert_self]
      constructor
      · intro h
        exact absurd (hb k n h) (lt_irrefl n)
      · intro h
        injection h with h
        exact absurd h.symm hk
    · rw [alookup_ainsert_ne n i key it hi]
      exact hiff k i

theorem inv_overwrite (kt : List (String × Nat)) (it : List (Nat × String))
    (key : String) (e n : Nat)
    (hiff : ∀ k i, alookup k kt = some i ↔ alookup i it = some k)
    (hb : ∀ k i, alookup k kt = some i → i < n)
    (he : alookup key kt = some e) :
    ∀ k i, alookup k (ainsert key n kt) = some i ↔
      alookup i (ainsert n key (aerase e it)) = some k := by
  intro k i
  have hit : alookup e it = some key := (hiff key e).mp he
  by_cases hk : k = key
  · rw [hk, alookup_ainsert_self]
    by_cases hi : i = n
    · rw [hi, alookup_ainsert_self]
      simp
    · rw [alookup_ainsert_ne n i key (aerase e it) hi]
      constructor
      · intro h
        injection h with h
        exact absurd h.symm hi
      · intro h
        by_cases hie : i = e
        · rw [hie, alookup_aerase_self] at h
          cases h
        · rw [alookup_aerase_ne e i it hie] at h
          have h2 := (hiff key i).mpr h
          rw [he] at h2
          injection h2 with h2
          exact absurd h2.symm hie
  · rw [alookup_ainsert_ne key k n kt hk]
    by_cases hi : i = n
    · rw [hi, alookup_ainsert_self]
      constructor
      · intro h
        exact absurd (hb k n h) (lt_irrefl n)
      · intro h
        injection h with h
        exact absurd h.symm hk
    · rw [alookup_ainsert_ne n i key (aerase e it) hi]
      by_cases hie : i = e
      · rw [hie, alookup_aerase_self]
        constructor
        · intro h
          have h2 := (hiff k e).mp (hie ▸ h)
          rw [hit] at h2
          injection h2 with h2
          exact absurd h2.symm hk
        · intro h
          cases h
      · rw [alookup_aerase_ne e i it hie]
        exact hiff k i

theorem inv_erase_pair (kt : List (String × Nat)) (it : List (Nat × String))
    (key : String) (id : Nat)
    (hiff : ∀ k i, alookup k kt = some i ↔ alookup i it = some k)
    (hpair : alookup key kt = some id) :
    ∀ k i, alookup k (aerase key kt) = some i ↔ alookup i (aerase id it) = some k := by
  intro k i
  have hit : alookup id it = some key := (hiff key id).mp hpair
  by_cases hk : k = key
  · rw [hk, alookup_aerase_self]
    constructor
    · intro h
      cases h
    · intro h
      by_cases hi : i = id
      · rw [hi, alookup_aerase_self] at h
        cases h
      · rw [alookup_aerase_ne id i it hi] at h
        have h2 := (hiff key i).mpr (hk ▸ h)
        rw [hpair] at h2
        injection h2 with h2
        exact absurd h2.symm hi
  · rw [alookup_aerase_ne key k kt hk]
    by_cases hi : i = id
    · rw [hi, alookup_aerase_self]
      constructor
      · intro h
        have h2 := (hiff k id).mp (hi ▸ h)
        rw [hit] at h2
        injection h2 with h2
        exact absurd h2.symm hk
      · intro h
        cases h
    · rw [alookup_aerase_ne id i it hi]
      exact hiff k i

theorem alookup_aerase_sub {α β : Type} [DecidableEq α] [BEq α] [LawfulBEq α]
    (k key : α) (l : List (α × β)) (v : β)
    (h : alookup k (aerase key l) = some v) : alookup k l = some v := by
  by_cases hk : k = key
  · rw [hk, alookup_aerase_self] at h
    cases h
  · rwa [alookup_aerase_ne key k l hk] at h

theorem bound_ainsert (kt : List (String × Nat)) (key : String) (n : Nat)
    (hb : ∀ k i, alookup k kt = some i → i < n) :
    ∀ k i, alookup k (ainsert key n kt) = some i → i < n + 1 := by
  intro k i h
  by_cases hk : k = key
  · rw [hk, alookup_ainsert_self] at h
    injection h with h
    omega
  · rw [alookup_ainsert_ne key k n kt hk] at h
    exact Nat.lt_succ_of_lt (hb k i h)

/-- `add` preserves the sidecar invariant and never decreases `next_id`. -/
theorem storeAdd_inv (st st2 : StoreState) (key : String) (v : List ℚ) (m : String)
    (hInv : StoreInv st) (h : storeAdd st key v m = .ok st2) :
    StoreInv st2 ∧ st.next_id ≤ st2.next_id := by
  obtain ⟨hiff, hb⟩ := hInv
  unfold storeAdd at h
  split at h
  · cases h
  · dsimp only at h
    split at h
    next e he =>
      injection h with h
      subst h
      refine ⟨⟨?_, ?_⟩, ?_⟩
      · exact inv_overwrite st.key_to_id st.id_to_key key e st.next_id hiff hb he
      · exact bound_ainsert st.key_to_id key st.next_id hb
      · exact Nat.le_succ st.next_id
    next he =>
      injection h with h
      subst h
      refine ⟨⟨?_, ?_⟩, ?_⟩
      · exact inv_insert_fresh st.key_to_id st.id_to_key key st.next_id hiff hb he
      · exact bound_ainsert st.key_to_id key st.next_id hb
      · exact Nat.le_succ st.next_id

theorem batchRemoveStep_next (s : StoreState) (id : Nat) :
    (batchRemoveStep s id).next_id = s.next_id := by
  unfold batchRemoveStep
  dsimp only
  split
  next key heq => rfl
  next heq => rfl

theorem batchRemoveStep_inv (s : StoreState) (id : Nat) (hInv : StoreInv s) :
    StoreInv (batchRemoveStep s id) := by
  obtain ⟨hiff, hb⟩ := hInv
  unfold batchRemoveStep
  dsimp only
  split
  next key heq =>
    refine ⟨?_, ?_⟩
    · exact inv_erase_pair s.key_to_id s.id_to_key key id hiff ((hiff key id).mpr heq)
    · intro k i hl
      exact hb k i (alookup_aerase_sub k key s.key_to_id i hl)
  next heq => exact ⟨hiff, hb⟩

theorem batchRemoveStep_kt_sub (s : StoreState) (id : Nat) (hInv : StoreInv s)
    (k : String) (j : Nat) (h : alookup k (batchRemoveStep s id).key_to_id = some j) :
    alookup k s.key_to_id = some j ∧ j ≠ id := by
  obtain ⟨hiff, hb⟩ := hInv
  unfold batchRemoveStep at h
  dsimp only at h
  split at h
  next key heq =>
    have hkt : alookup k s.key_to_id = some j := alookup_aerase_sub k key s.key_to_id j h
    refine ⟨hkt, ?_⟩
    intro hj
    subst hj
    have h2 := (hiff k j).mp hkt
    rw [heq] at h2
    injection h2 with h2
    subst h2
    rw [alookup_aerase_self] at h
    cases h
  next heq =>
    refine ⟨h, ?_⟩
    intro hj
    subst hj
    have h2 := (hiff k j).mp h
    rw [heq] at h2
    cases h2

theorem foldl_batchRemove_inv (ids : List Nat) (s : StoreState) (hInv : StoreInv s) :
    StoreInv (ids.foldl batchRemoveStep s) := by
  induction ids generalizing s with
  | nil => exact hInv
  | cons id rest ih => exact ih _ (batchRemoveStep_inv s id hInv)

theorem foldl_batchRemove_next (ids : List Nat) (s : StoreState) :
    (ids.foldl batchRemoveStep s).next_id = s.next_id := by
  induction ids generalizing s with
  | nil => rfl
  | cons id rest ih => rw [List.foldl_cons, ih, batchRemoveStep_next]

theorem foldl_batchRemove_kt_sub (ids : List Nat) (s : StoreState) (hInv : StoreInv s)
    (k : String) (j : Nat) (h : alookup k (ids.foldl batchRemoveStep s).key_to_id = some j) :
    alookup k s.key_to_id = some j ∧ j ∉ ids := by
  induction ids generalizing s with
  | nil => exact ⟨h, List.not_mem_nil j⟩
  | cons id rest ih =>
    rw [List.foldl_cons] at h
    rcases ih (batchRemoveStep s id) (batchRemoveStep_inv s id hInv) h with ⟨h1, h2⟩
    rcases batchRemoveStep_kt_sub s id hInv k j h1 with ⟨h3, h4⟩
    refine ⟨h3, ?_⟩
    intro hmem
    rcases List.mem_cons.mp hmem with rfl | hmem
    · exact h4 rfl
    · exact h2 hmem

/-- After the removal loop of `add_batch`, none of the batch keys is
mapped any more. -/
theorem foldl_batchRemove_absent (keys : List String) (st : StoreState) (hInv : StoreInv st)
    (key : String) (hkey : key ∈ keys) :
    alookup key
      ((keys.filterMap (fun k => alookup k st.key_to_id)).foldl batchRemoveStep st).key_to_id =
      none := by
  cases hl : alookup key
      ((keys.filterMap (fun k => alookup k st.key_to_id)).foldl batchRemoveStep st).key_to_id with
  | none => rfl
  | some j =>
    rcases foldl_batchRemove_kt_sub _ st hInv key j hl with ⟨h1, h2⟩
    exact absurd (List.mem_filterMap.mpr ⟨key, hkey, h1⟩) h2

theorem foldl_batchInsert_inv (pairs : List (String × String)) (j start : Nat)
    (s : StoreState)
    (hiff : ∀ k i, alookup k s.key_to_id = some i ↔ alookup i s.id_to_key = some k)
    (hb : ∀ k i, alookup k s.key_to_id = some i → i < start + j)
    (habs : ∀ p ∈ pairs, alookup p.1 s.key_to_id = none)
    (hnodup : (pairs.map (fun p => p.1)).Nodup) :
    (∀ k i,
      alookup k ((List.enumFrom j pairs).foldl (batchInsertStep start) s).key_to_id = some i ↔
      alookup i ((List.enumFrom j pairs).foldl (batchInsertStep start) s).id_to_key = some k) ∧
    (∀ k i,
      alookup k ((List.enumFrom j pairs).foldl (batchInsertStep start) s).key_to_id = some i →
      i < start + j + pairs.length) ∧
    ((List.enumFrom j pairs).foldl (batchInsertStep start) s).next_id = s.next_id := by
  induction pairs generalizing j s with
  | nil => exact ⟨hiff, fun k i hl => Nat.lt_of_lt_of_le (hb k i hl) (Nat.le_refl _), rfl⟩
  | cons p rest ih =>
    rw [List.enumFrom_cons, List.foldl_cons]
    have hpabs : alookup p.1 s.key_to_id = none := habs p (List.mem_cons_self p rest)
    have hiff2 := inv_insert_fresh s.key_to_id s.id_to_key p.1 (start + j) hiff hb hpabs
    have hb2 := bound_ainsert s.key_to_id p.1 (start + j) hb
    have hnodup2 : ((rest.map (fun p => p.1)).Nodup) := (List.nodup_cons.mp hnodup).2
    have hpnot : p.1 ∉ rest.map (fun p => p.1) := (List.nodup_cons.mp hnodup).1
    have habs2 : ∀ q ∈ rest, alookup q.1 (batchInsertStep start s (j, p)).key_to_id = none := by
      intro q hq
      have hne : q.1 ≠ p.1 := by
        intro hqp
        exact hpnot (hqp ▸ List.mem_map.mpr ⟨q, hq, rfl⟩)
      unfold batchInsertStep
      dsimp only
      rw [alookup_ainsert_ne p.1 q.1 (start + j) s.key_to_id hne]
      exact habs q (List.mem_cons_of_mem p hq)
    have hstep : ∀ k i,
        alookup k (batchInsertStep start s (j, p)).key_to_id = some i →
        i < start + (j + 1) := by
      intro k i hl
      have := hb2 k i hl
      omega
    have hiffstep : ∀ k i,
        alookup k (batchInsertStep start s (j, p)).key_to_id = some i ↔
        alookup i (batchInsertStep start s (j, p)).id_to_key = some k := hiff2
    rcases ih (j + 1) (batchInsertStep start s (j, p)) hiffstep hstep habs2 hnodup2 with
      ⟨h1, h2, h3⟩
    refine ⟨h1, ?_, h3⟩
    intro k i hl
    have := h2 k i hl
    simp only [List.length_cons]
    omega

/-- `add_batch` with pairwise-distinct keys preserves the sidecar
invariant and never decreases `next_id`. -/
theorem storeAddBatch_inv (st st2 : StoreState) (keys : List String)
    (vectors : List (List ℚ)) (metadata : List String) (hInv : StoreInv st)
    (hnodup : keys.Nodup) (h : storeAddBatch st keys vectors metadata = .ok st2) :
    StoreInv st2 ∧ st.next_id ≤ st2.next_id := by
  obtain ⟨hiff, hb⟩ := hInv
  unfold storeAddBatch at h
  split at h
  · cases h
  next hsz =>
    push_neg at hsz
    obtain ⟨hszv, hszm⟩ := hsz
    split at h
    · injection h with h
      subst h
      exact ⟨⟨hiff, hb⟩, Nat.le_refl _⟩
    next hk0 =>
      split at h
      · cases h
      next hdim =>
        dsimp only at h
        injection h with h
        subst h
        refine ⟨⟨?_, ?_⟩, ?_⟩
        all_goals {
          have hInv1 : StoreInv
              ((keys.filterMap (fun key => alookup key st.key_to_id)).foldl
                batchRemoveStep st) :=
            foldl_batchRemove_inv _ st ⟨hiff, hb⟩
          have hnext1 :
              ((keys.filterMap (fun key => alookup key st.key_to_id)).foldl
                batchRemoveStep st).next_id = st.next_id :=
            foldl_batchRemove_next _ st
          have habs : ∀ p ∈ keys.zip metadata,
              alookup p.1
                ((keys.filterMap (fun key => alookup key st.key_to_id)).foldl
                  batchRemoveStep st).key_to_id = none := by
            intro p hp
            exact foldl_batchRemove_absent keys st ⟨hiff, hb⟩ p.1 (List.of_mem_zip hp).1
          have hlenzip : (keys.zip metadata).length = keys.length := by
            rw [List.length_zip, hszm]
            exact Nat.min_self _
          have hnodup2 : ((keys.zip metadata).map (fun p => p.1)).Nodup := by
            rw [List.map_fst_zip keys metadata (le_of_eq hszm)]
            exact hnodup
          have hbase := foldl_batchInsert_inv (keys.zip metadata) 0
            (((keys.filterMap (fun key => alookup key st.key_to_id)).foldl
                batchRemoveStep st).next_id)
            { (keys.filterMap (fun key => alookup key st.key_to_id)).foldl
                batchRemoveStep st with
              capacity := max
                (((keys.filterMap (fun key => alookup key st.key_to_id)).foldl
                    batchRemoveStep st).capacity)
                ((((keys.filterMap (fun key => alookup key st.key_to_id)).foldl
                    batchRemoveStep st).index).length + keys.length)
              index :=
                (((keys.filterMap (fun key => alookup key st.key_to_id)).foldl
                    batchRemoveStep st).index) ++
                  ((List.range keys.length).map (fun i =>
                    ((keys.filterMap (fun key => alookup key st.key_to_id)).foldl
                        batchRemoveStep st).next_id + i)).zip vectors }
            hInv1.1
            (by
              intro k i hl
              have := hInv1.2 k i hl
              omega)
            habs hnodup2
          first
          | exact hbase.1
          | (intro k i hl
             have h2 := hbase.2.1 k i hl
             have h3 := hlenzip
             dsimp only
             omega)
          | (have h4 := hbase.2.2
             have h5 := hnext1
             dsimp only
             omega)
        }

/-- `remove` preserves the sidecar invariant and `next_id`. -/
theorem storeRemove_inv (st st2 : StoreState) (key : String) (b : Bool)
    (hInv : StoreInv st) (h : storeRemove st key = .ok (st2, b)) :
    StoreInv st2 ∧ st.next_id ≤ st2.next_id := by
  obtain ⟨hiff, hb⟩ := hInv
  unfold storeRemove at h
  split at h
  next id heq =>
    injection h with h
    have hst : st2 = { st with index := st.index.filter (fun p => !(p.1 == id))
                               id_to_key := aerase id st.id_to_key
                               key_to_id := aerase key st.key_to_id
                               metadata := aerase key st.metadata } := by
      have := congrArg Prod.fst h
      exact this.symm
    subst hst
    refine ⟨⟨?_, ?_⟩, Nat.le_refl _⟩
    · exact inv_erase_pair st.key_to_id st.id_to_key key id hiff heq
    · intro k i hl
      exact hb k i (alookup_aerase_sub k key st.key_to_id i hl)
  next heq =>
    injection h with h
    have hst : st2 = st := by
      have := congrArg Prod.fst h
      exact this.symm
    subst hst
    exact ⟨⟨hiff, hb⟩, Nat.le_refl _⟩

/-- `clear` resets the sidecar maps and counter; the invariant holds
trivially for the empty state. -/
theorem storeClear_inv (st st2 : StoreState) (h : storeClear st = .ok st2) :
    StoreInv st2 ∧ st2.next_id = 0 := by
  unfold storeClear at h
  injection h with h
  subst h
  refine ⟨⟨?_, ?_⟩, rfl⟩
  · intro k i
    simp [alookup]
  · intro k i hl
    simp [alookup] at hl

/-- Claim C10 (corrected).  After every successful `add`, `add_batch`
with pairwise-distinct keys, `remove` or `clear`, the `key_to_id` and
`id_to_key` maps are mutual inverses and `next_id` is strictly greater
than every id occurring in them; `next_id` never decreases across `add`,
`add_batch` and `remove`.  (`clear` resets `next_id` to 0 together with
emptying the maps, and `add_batch` with a repeated key in one batch
breaks the mutual-inverse property; see the counterexample.) -/
theorem claim_C10_store_invariants :
    (∀ (st st2 : StoreState) (key : String) (v : List ℚ) (m : String),
      StoreInv st → storeAdd st key v m = .ok st2 →
      StoreInv st2 ∧ st.next_id ≤ st2.next_id) ∧
    (∀ (st st2 : StoreState) (keys : List String) (vectors : List (List ℚ))
        (metadata : List String),
      StoreInv st → keys.Nodup → storeAddBatch st keys vectors metadata = .ok st2 →
      StoreInv st2 ∧ st.next_id ≤ st2.next_id) ∧
    (∀ (st st2 : StoreState) (key : String) (b : Bool),
      StoreInv st → storeRemove st key = .ok (st2, b) →
      StoreInv st2 ∧ st.next_id ≤ st2.next_id) ∧
    (∀ (st st2 : StoreState), storeClear st = .ok st2 → StoreInv st2 ∧ st2.next_id = 0) :=
  ⟨fun st st2 key v m hInv h => storeAdd_inv st st2 key v m hInv h,
   fun st st2 keys vectors metadata hInv hnodup h =>
     storeAddBatch_inv st st2 keys vectors metadata hInv hnodup h,
   fun st st2 key b hInv h => storeRemove_inv st st2 key b hInv h,
   fun st st2 h => storeClear_inv st st2 h⟩

/-- Counterexample to C10 as stated: (a) `add_batch` with the key `aaa`
repeated in one batch leaves `id_to_key` mapping id 0 to `aaa` while
`key_to_id` maps `aaa` to 1, so the maps are not mutual inverses; and
(b) `clear` after one `add` resets `next_id` from 1 back to 0, so across
sequences containing `clear` the counter does decrease. -/
theorem claim_C10_counterexample :
    ((storeAddBatch (StoreState.new 1) ["aaa", "aaa"] [[1], [2]] ["x", "y"]).map
        (fun s => (alookup 0 s.id_to_key, alookup "aaa" s.key_to_id)) =
      .ok (some "aaa", some 1) ∧ (1 : Nat) ≠ 0) ∧
    ((storeAdd (StoreState.new 1) "aaa" [1] "x").map (fun s => s.next_id) = .ok 1 ∧
      (storeAdd (StoreState.new 1) "aaa" [1] "x").map
          (fun s => (storeClear s).map (fun s2 => s2.next_id)) = .ok (.ok 0)) := by
  exact ⟨⟨rfl, by decide⟩, ⟨rfl, rfl⟩⟩

/-- The store state after adding one vector to a fresh 2-dimensional
store. -/
def storeAfterAdd : StoreState :=
  { key_to_id := [("aaa", 0)], id_to_key := [(0, "aaa")], metadata := [("aaa", "m")],
    next_id := 1, index := [(0, [1, 2])], capacity := 1024, dimensions := 2 }

/-- Witness for C10 at a concrete input. -/
theorem claim_C10_witness :
    StoreInv (StoreState.new 2) ∧ (["aaa"] : List String).Nodup ∧
    storeAdd (StoreState.new 2) "aaa" [1, 2] "m" = .ok storeAfterAdd ∧
    StoreInv storeAfterAdd ∧ (StoreState.new 2).next_id ≤ storeAfterAdd.next_id := by
  have hInv : StoreInv (StoreState.new 2) :=
    ⟨fun k i => by simp [StoreState.new, alookup],
     fun k i hl => by simp [StoreState.new, alookup] at hl⟩
  have hadd : storeAdd (StoreState.new 2) "aaa" [1, 2] "m" = .ok storeAfterAdd := rfl
  have hres := claim_C10_store_invariants.1 (StoreState.new 2) storeAfterAdd "aaa" [1, 2] "m"
    hInv hadd
  exact ⟨hInv, by decide, hadd, hres.1, hres.2⟩

/-! ## Parser / chunker (src/native/src/parser.rs, src/native/src/types.rs)

Source text is a list of characters (one per byte; exact for ASCII).
Tree-sitter parse trees are supplied as an inductive tree whose nodes
carry their kind, byte span and row span. -/

inductive Language where
  | TypeScript | TypeScriptTsx | JavaScript | JavaScriptJsx | Python | Rust
  | Go | Java | CSharp | Ruby | C | Cpp | Json | Toml | Yaml | Bash
  | Markdown | Unknown
deriving Repr, DecidableEq

/-- `Language::from_extension`. -/
def Language.from_extension (ext : String) : Language :=
  match (ext.toList.map Char.toLower).asString with
  | "ts" | "mts" | "cts" => Language.TypeScript
  | "tsx" => Language.TypeScriptTsx
  | "js" | "mjs" | "cjs" => Language.JavaScript
  | "jsx" => Language.JavaScriptJsx
  | "py" | "pyi" => Language.Python
  | "rs" => Language.Rust
  | "go" => Language.Go
  | "java" => Language.Java
  | "cs" => Language.CSharp
  | "rb" => Language.Ruby
  | "c" | "h" => Language.C
  | "cpp" | "cc" | "cxx" | "hpp" | "hxx" => Language.Cpp
  | "json" => Language.Json
  | "toml" => Language.Toml
  | "yaml" | "yml" => Language.Yaml
  | "sh" | "bash" | "zsh" => Language.Bash
  | "md" | "mdx" => Language.Markdown
  | _ => Language.Unknown

/-- `Language::as_str`. -/
def Language.as_str : Language → String
  | Language.TypeScript => "typescript"
  | Language.TypeScriptTsx => "tsx"
  | Language.JavaScript => "javascript"
  | Language.JavaScriptJsx => "jsx"
  | Language.Python => "python"
  | Language.Rust => "rust"
  | Language.Go => "go"
  | Language.Java => "java"
  | Language.CSharp => "csharp"
  | Language.Ruby => "ruby"
  | Language.C => "c"
  | Language.Cpp => "cpp"
  | Language.Json => "json"
  | Language.Toml => "toml"
  | Language.Yaml => "yaml"
  | Language.Bash => "bash"
  | Language.Markdown => "markdown"
  | Language.Unknown => "unknown"

def MIN_CHUNK_SIZE : Nat := 50
def MAX_CHUNK_SIZE : Nat := 2000
def TARGET_CHUNK_SIZE : Nat := 500
def OVERLAP_LINES : Nat := 3

structure CodeChunk where
  content : List Char
  start_line : Nat
  end_line : Nat
  chunk_type : String
  name : Option String
  language : String
deriving Repr, DecidableEq

/-- Split a character list at every occurrence of `c` (keeping empty
segments, like `str::split`). -/
def splitListOn (c : Char) : List Char → List (List Char)
  | [] => [[]]
  | x :: rest =>
    if x = c then [] :: splitListOn c rest
    else
      match splitListOn c rest with
      | [] => [[x]]
      | s :: ss => (x :: s) :: ss

/-- Strip one trailing carriage return (as `str::lines` does per line). -/
def stripCr (l : List Char) : List Char :=
  if l.getLast? = some '\r' then l.dropLast else l

/-- `str::lines`: split on newlines; a trailing newline does not produce
a final empty line; a trailing carriage return is stripped from each
line. -/
def rustLines (s : List Char) : List (List Char) :=
  if s = [] then []
  else
    let parts := splitListOn '\n' s
    let parts := if s.getLast? = some '\n' then parts.dropLast else parts
    parts.map stripCr

/-- `Path::extension().unwrap_or("")`: the part after the last dot of the
last path component (none for dotless names and plain dotfiles). -/
def extOf (file_path : String) : String :=
  let name := (splitListOn '/' file_path.toList).getLastD []
  let parts := splitListOn '.' name
  if 2 ≤ parts.length ∧ ¬(parts.length = 2 ∧ parts.headD [] = []) then
    (parts.getLastD []).asString
  else ""

/-- The window loop of `chunk_by_lines` (30-line windows, 3-line overlap,
so a step of 27; windows under `MIN_CHUNK_SIZE` bytes are dropped). -/
def chunk_by_lines_go (lines : List (List Char)) (language : String) (start : Nat) :
    List CodeChunk :=
  if h : start < lines.length then
    let e := min (start + 30) lines.length
    let sub := List.intercalate ['\n'] ((lines.drop start).take (e - start))
    let here : List CodeChunk :=
      if MIN_CHUNK_SIZE ≤ sub.length then
        [⟨sub, start + 1, e, "block", none, language⟩]
      else []
    if e ≥ lines.length then here
    else here ++ chunk_by_lines_go lines language (start + (30 - OVERLAP_LINES))
  else []
termination_by lines.length - start
decreasing_by
  simp only [OVERLAP_LINES]
  omega

/-- `chunk_by_lines`. -/
def chunk_by_lines (content : List Char) (language : Language) : List CodeChunk :=
  let lines := rustLines content
  if lines.length = 0 then []
  else chunk_by_lines_go lines language.as_str 0

/-- The window loop of `split_large_chunk` (`TARGET_CHUNK_SIZE / 40` = 12
lines per window, step 9 after the 3-line overlap; sub-chunks under
`MIN_CHUNK_SIZE` bytes are dropped; line numbers are relative to the
original chunk). -/
def split_go (chunk : CodeChunk) (lines : List (List Char)) (start : Nat) :
    List CodeChunk :=
  if h : start < lines.length then
    let e := min (start + TARGET_CHUNK_SIZE / 40) lines.length
    let sub := List.intercalate ['\n'] ((lines.drop start).take (e - start))
    let here : List CodeChunk :=
      if MIN_CHUNK_SIZE ≤ sub.length then
        [⟨sub, chunk.start_line + start, chunk.start_line + e - 1,
          chunk.chunk_type, chunk.name, chunk.language⟩]
      else []
    if e ≥ lines.length then here
    else here ++ split_go chunk lines (start + (TARGET_CHUNK_SIZE / 40 - OVERLAP_LINES))
  else []
termination_by lines.length - start
decreasing_by
  simp only [OVERLAP_LINES, TARGET_CHUNK_SIZE]
  omega

/-- `split_large_chunk`.  A chunk with at most one line is pushed
unsplit. -/
def split_large_chunk (chunk : CodeChunk) : List CodeChunk :=
  let lines := rustLines chunk.content
  if lines.length ≤ 1 then [chunk]
  else split_go chunk lines 0

/-- The accumulator loop of `merge_small_chunks`. -/
def mergeGo : Option CodeChunk → List CodeChunk → List CodeChunk
  | none, [] => []
  | some cur, [] => [cur]
  | none, c :: rest => mergeGo (some c) rest
  | some cur, c :: rest =>
    if cur.content.length < MIN_CHUNK_SIZE * 2 ∧
        cur.content.length + c.content.length ≤ MAX_CHUNK_SIZE ∧
        c.start_line ≤ cur.end_line + 1 then
      mergeGo (some { cur with
        content := cur.content ++ ('\n' :: '\n' :: c.content)
        end_line := c.end_line }) rest
    else
      cur :: mergeGo (some c) rest

/-- `merge_small_chunks`. -/
def merge_small_chunks (chunks : List CodeChunk) : List CodeChunk :=
  if chunks.length < 2 then chunks
  else mergeGo none chunks

/-- A tree-sitter parse-tree node: kind, byte span, row span, children. -/
inductive TSNode where
  | node (kind : String) (startByte endByte startRow endRow : Nat)
      (children : List TSNode)
deriving Repr

def TSNode.kind : TSNode → String
  | .node k _ _ _ _ _ => k

def TSNode.startByte : TSNode → Nat
  | .node _ s _ _ _ _ => s

def TSNode.endByte : TSNode → Nat
  | .node _ _ e _ _ _ => e

def TSNode.startRow : TSNode → Nat
  | .node _ _ _ r _ _ => r

def TSNode.endRow : TSNode → Nat
  | .node _ _ _ _ r _ => r

def TSNode.children : TSNode → List TSNode
  | .node _ _ _ _ _ c => c

/-- `is_comment_node`. -/
def is_comment_node (node_type : String) (language : Language) : Bool :=
  match language with
  | Language.TypeScript | Language.TypeScriptTsx
  | Language.JavaScript | Language.JavaScriptJsx => node_type == "comment"
  | Language.Python => node_type == "comment"
  | Language.Rust => node_type == "line_comment" || node_type == "block_comment"
  | Language.Go => node_type == "comment"
  | Language.Java => node_type == "line_comment" || node_type == "block_comment"
  | Language.CSharp => node_type == "comment"
  | Language.Ruby => node_type == "comment"
  | Language.Bash => node_type == "comment"
  | Language.C | Language.Cpp => node_type == "comment"
  | _ => false

/-- `is_semantic_node`. -/
def is_semantic_node (node_type : String) (language : Language) : Bool :=
  match language with
  | Language.TypeScript | Language.TypeScriptTsx
  | Language.JavaScript | Language.JavaScriptJsx =>
    node_type == "function_declaration" || node_type == "function" ||
    node_type == "arrow_function" || node_type == "method_definition" ||
    node_type == "class_declaration" || node_type == "interface_declaration" ||
    node_type == "type_alias_declaration" || node_type == "enum_declaration" ||
    node_type == "export_statement" || node_type == "lexical_declaration"
  | Language.Python =>
    node_type == "function_definition" || node_type == "class_definition" ||
    node_type == "decorated_definition"
  | Language.Rust =>
    node_type == "function_item" || node_type == "impl_item" ||
    node_type == "struct_item" || node_type == "enum_item" ||
    node_type == "trait_item" || node_type == "mod_item" ||
    node_type == "macro_definition"
  | Language.Go =>
    node_type == "function_declaration" || node_type == "method_declaration" ||
    node_type == "type_declaration" || node_type == "type_spec"
  | Language.Java =>
    node_type == "class_declaration" || node_type == "method_declaration" ||
    node_type == "constructor_declaration" || node_type == "interface_declaration" ||
    node_type == "enum_declaration" || node_type == "annotation_type_declaration"
  | Language.CSharp =>
    node_type == "class_declaration" || node_type == "method_declaration" ||
    node_type == "constructor_declaration" || node_type == "interface_declaration" ||
    node_type == "enum_declaration" || node_type == "struct_declaration" ||
    node_type == "record_declaration" || node_type == "property_declaration"
  | Language.Ruby =>
    node_type == "method" || node_type == "singleton_method" ||
    node_type == "class" || node_type == "module"
  | Language.Bash => node_type == "function_definition"
  | Language.C =>
    node_type == "function_definition" || node_type == "struct_specifier" ||
    node_type == "enum_specifier" || node_type == "type_definition"
  | Language.Cpp =>
    node_type == "function_definition" || node_type == "class_specifier" ||
    node_type == "struct_specifier" || node_type == "enum_specifier" ||
    node_type == "namespace_definition" || node_type == "template_declaration"
  | _ => false

/-- `find_leading_comment`: walk back through the immediately preceding
siblings (`prev`, nearest first) while they are comments; return the byte
where the earliest attached comment starts.  (The combined comment text
computed by the source is unused by its caller.) -/
def find_leading_comment (prev : List TSNode) (language : Language) : Option Nat :=
  let comments := prev.takeWhile (fun n => is_comment_node n.kind language)
  (comments.getLast?).map (fun n => n.startByte)

/-- `extract_name`: the text of the first direct child whose kind is an
identifier-like kind. -/
def extract_name (n : TSNode) (source : List Char) : Option String :=
  (n.children.find? (fun c =>
    c.kind == "identifier" || c.kind == "property_identifier" ||
    c.kind == "type_identifier" || c.kind == "name")).map
      (fun c => ((source.drop c.startByte).take (c.endByte - c.startByte)).asString)

/-- The sibling walk of `extract_semantic_nodes`: semantic nodes are
emitted (after leading-comment attachment and the size policy) and not
descended into; other nodes are descended into.  `prev` holds the already
visited earlier siblings, nearest first. -/
def extractSib (source : List Char) (language : Language) :
    List TSNode → List TSNode → List CodeChunk
  | _, [] => []
  | prev, n :: rest =>
    (if is_semantic_node n.kind language then
      let lead := find_leading_comment prev language
      let start_byte := match lead with
        | some s => s
        | none => n.startByte
      let content := (source.drop start_byte).take (n.endByte - start_byte)
      if MIN_CHUNK_SIZE ≤ content.length then
        let name := extract_name n source
        let start_line := match lead with
          | some _ => (source.take start_byte).count '\n' + 1
          | none => n.startRow + 1
        let chunk : CodeChunk :=
          ⟨content, start_line, n.endRow + 1, n.kind, name, language.as_str⟩
        if content.length ≤ MAX_CHUNK_SIZE then [chunk]
        else split_large_chunk chunk
      else []
    else
      extractSib source language [] n.children) ++
    extractSib source language (n :: prev) rest
termination_by _ nodes => sizeOf nodes
decreasing_by
  · cases n
    simp [TSNode.children]
    omega
  · simp

/-- `extract_chunks`. -/
def extract_chunks (root : TSNode) (source : List Char) (language : Language) :
    List CodeChunk :=
  let chunks := extractSib source language [] [root]
  if chunks.isEmpty then chunk_by_lines source language
  else merge_small_chunks chunks

/-- `parse_file_internal`.  The tree-sitter parse of the content is an
input (`tree`); languages without a grammar in the source dispatch
(`Toml`, `Yaml`, `Markdown`) and `Unknown` fall through to
`chunk_by_lines`. -/
def parse_file_internal (file_path : String) (content : List Char) (tree : TSNode) :
    List CodeChunk :=
  let language := Language.from_extension (extOf file_path)
  if language = Language.Unknown then chunk_by_lines content language
  else
    match language with
    | Language.Toml | Language.Yaml | Language.Markdown | Language.Unknown =>
      chunk_by_lines content language
    | _ => extract_chunks tree content language

/-! ## Claim C2: chunk size bounds -/

theorem chunk_by_lines_go_min (lines : List (List Char)) (lang : String) :
    ∀ (start : Nat), ∀ c ∈ chunk_by_lines_go lines lang start,
      MIN_CHUNK_SIZE ≤ c.content.length := by
  have key : ∀ (fuel start : Nat), lines.length - start ≤ fuel →
      ∀ c ∈ chunk_by_lines_go lines lang start, MIN_CHUNK_SIZE ≤ c.content.length := by
    intro fuel
    induction fuel with
    | zero =>
      intro start hle c hc
      rw [chunk_by_lines_go, dif_neg (by omega)] at hc
      cases hc
    | succ fuel ih =>
      intro start hle c hc
      rw [chunk_by_lines_go] at hc
      by_cases hlt : start < lines.length
      · rw [dif_pos hlt] at hc
        dsimp only at hc
        split at hc
        · split at hc
          next hmin =>
            rcases List.mem_singleton.mp hc with rfl
            exact hmin
          next hmin => cases hc
        · rcases List.mem_append.mp hc with hc1 | hc2
          · split at hc1
            next hmin =>
              rcases List.mem_singleton.mp hc1 with rfl
              exact hmin
            next hmin => cases hc1
          · exact ih (start + (30 - OVERLAP_LINES)) (by simp only [OVERLAP_LINES]; omega) c hc2
      · rw [dif_neg hlt] at hc
        cases hc
  intro start
  exact key (lines.length - start) start (le_refl _)

theorem split_go_min (chunk : CodeChunk) (lines : List (List Char)) :
    ∀ (start : Nat), ∀ c ∈ split_go chunk lines start,
      MIN_CHUNK_SIZE ≤ c.content.length := by
  have key : ∀ (fuel start : Nat), lines.length - start ≤ fuel →
      ∀ c ∈ split_go chunk lines start, MIN_CHUNK_SIZE ≤ c.content.length := by
    intro fuel
    induction fuel with
    | zero =>
      intro start hle c hc
      rw [split_go, dif_neg (by omega)] at hc
      cases hc
    | succ fuel ih =>
      intro start hle c hc
      rw [split_go] at hc
      by_cases hlt : start < lines.length
      · rw [dif_pos hlt] at hc
        dsimp only at hc
        split at hc
        · split at hc
          next hmin =>
            rcases List.mem_singleton.mp hc with rfl
            exact hmin
          next hmin => cases hc
        · rcases List.mem_append.mp hc with hc1 | hc2
          · split at hc1
            next hmin =>
              rcases List.mem_singleton.mp hc1 with rfl
              exact hmin
            next hmin => cases hc1
          · exact ih (start + (TARGET_CHUNK_SIZE / 40 - OVERLAP_LINES))
              (by simp only [OVERLAP_LINES, TARGET_CHUNK_SIZE]; omega) c hc2
      · rw [dif_neg hlt] at hc
        cases hc
  intro start
  exact key (lines.length - start) start (le_refl _)

theorem split_large_chunk_min (chunk : CodeChunk)
    (h : MIN_CHUNK_SIZE ≤ chunk.content.length) :
    ∀ c ∈ split_large_chunk chunk, MIN_CHUNK_SIZE ≤ c.content.length := by
  intro c hc
  rw [split_large_chunk] at hc
  split at hc
  · rcases List.mem_singleton.mp hc with rfl
    exact h
  · exact split_go_min chunk (rustLines chunk.content) 0 c hc

theorem chunk_by_lines_min (content : List Char) (language : Language) :
    ∀ c ∈ chunk_by_lines content language, MIN_CHUNK_SIZE ≤ c.content.length := by
  intro c hc
  rw [chunk_by_lines] at hc
  split at hc
  · cases hc
  · exact chunk_by_lines_go_min (rustLines content) language.as_str 0 c hc

theorem mergeGo_min (chunks : List CodeChunk) :
    ∀ (cur : Option CodeChunk),
      (∀ c0, cur = some c0 → MIN_CHUNK_SIZE ≤ c0.content.length) →
      (∀ c0 ∈ chunks, MIN_CHUNK_SIZE ≤ c0.content.length) →
      ∀ c ∈ mergeGo cur chunks, MIN_CHUNK_SIZE ≤ c.content.length := by
  induction chunks with
  | nil =>
    intro cur hcur hall c hc
    cases cur with
    | none => cases hc
    | some c0 =>
      rcases List.mem_singleton.mp hc with rfl
      exact hcur c rfl
  | cons x rest ih =>
    intro cur hcur hall c hc
    cases cur with
    | none =>
      rw [mergeGo] at hc
      have hx : ∀ c1, some x = some c1 → MIN_CHUNK_SIZE ≤ c1.content.length := by
        intro c1 he
        injection he with he
        subst he
        exact hall x (List.mem_cons_self x rest)
      exact ih (some x) hx (fun c1 hm => hall c1 (List.mem_cons_of_mem x hm)) c hc
    | some c0 =>
      rw [mergeGo] at hc
      split at hc
      · refine ih _ (fun c1 h1 => ?_) (fun c1 h1 => hall c1 (List.mem_cons_of_mem x h1)) c hc
        injection h1 with h1
        subst h1
        have hc0 : MIN_CHUNK_SIZE ≤ c0.content.length := hcur c0 rfl
        simp only [List.length_append]
        omega
      · rcases List.mem_cons.mp hc with rfl | hc2
        · exact hcur c rfl
        · have hx : ∀ c1, some x = some c1 → MIN_CHUNK_SIZE ≤ c1.content.length := by
            intro c1 he
            injection he with he
            subst he
            exact hall x (List.mem_cons_self x rest)
          exact ih (some x) hx (fun c1 hm => hall c1 (List.mem_cons_of_mem x hm)) c hc2

theorem merge_small_chunks_min (chunks : List CodeChunk)
    (hall : ∀ c0 ∈ chunks, MIN_CHUNK_SIZE ≤ c0.content.length) :
    ∀ c ∈ merge_small_chunks chunks, MIN_CHUNK_SIZE ≤ c.content.length := by
  intro c hc
  rw [merge_small_chunks] at hc
  split at hc
  · exact hall c hc
  · exact mergeGo_min chunks none (fun c0 h0 => by cases h0) hall c hc


theorem extractSib_min (source : List Char) (language : Language) :
    ∀ (prev nodes : List TSNode), ∀ c ∈ extractSib source language prev nodes,
      MIN_CHUNK_SIZE ≤ c.content.length := by
  intro prev nodes
  refine extractSib.induct source language
    (fun prev nodes => ∀ c ∈ extractSib source language prev nodes,
      MIN_CHUNK_SIZE ≤ c.content.length) ?_ ?_ prev nodes
  · intro prev c hc
    rw [extractSib] at hc
    cases hc
  · intro prev n rest ih1 ih2 c hc
    rw [extractSib] at hc
    rcases List.mem_append.mp hc with hc1 | hc2
    · split at hc1
      next hsem =>
        dsimp only at hc1
        split at hc1
        next hmin =>
          split at hc1
          · rcases List.mem_singleton.mp hc1 with rfl
            exact hmin
          · exact split_large_chunk_min _ hmin c hc1
        next hmin => cases hc1
      next hsem => exact ih1 hsem c hc1
    · exact ih2 c hc2

theorem extract_chunks_min (root : TSNode) (source : List Char) (language : Language) :
    ∀ c ∈ extract_chunks root source language, MIN_CHUNK_SIZE ≤ c.content.length := by
  intro c hc
  rw [extract_chunks] at hc
  split at hc
  · exact chunk_by_lines_min source language c hc
  · exact merge_small_chunks_min _ (extractSib_min source language [] [root]) c hc

/-- Claim C2 (corrected).  Every chunk produced by `parse_file` (semantic
path, split pass, merge pass, and the fallback line chunker) has content
length at least `MIN_CHUNK_SIZE` = 50.  The upper bound `MAX_CHUNK_SIZE`
= 2000 does not hold: `split_large_chunk` pushes single-line oversized
chunks unsplit, its 12-line windows are not re-checked against
`MAX_CHUNK_SIZE`, the fallback 30-line windows are never checked against
it either, and merging joins with a two-byte separator on top of the
`≤ MAX_CHUNK_SIZE` sum check. -/
theorem claim_C2_chunk_size_bounds (file_path : String) (content : List Char)
    (tree : TSNode) :
    ∀ c ∈ parse_file_internal file_path content tree,
      MIN_CHUNK_SIZE ≤ c.content.length := by
  intro c hc
  rw [parse_file_internal] at hc
  split at hc
  · exact chunk_by_lines_min content _ c hc
  · split at hc
    all_goals
      first
        | exact chunk_by_lines_min content _ c hc
        | exact extract_chunks_min tree content _ c hc

theorem getLast?_mem_self {α : Type} (l : List α) (a : α) (h : l.getLast? = some a) :
    a ∈ l := by
  rcases List.mem_getLast?_eq_getLast (by rw [h]; exact Option.mem_some_iff.mpr rfl) with
    ⟨hne, rfl⟩
  exact List.getLast_mem hne

theorem splitListOn_of_not_mem (c : Char) (l : List Char) (h : c ∉ l) :
    splitListOn c l = [l] := by
  induction l with
  | nil => rfl
  | cons x rest ih =>
    have hx : ¬ x = c := fun hc => h (hc ▸ List.mem_cons_self x rest)
    have hrest : c ∉ rest := fun hm => h (List.mem_cons_of_mem x hm)
    rw [splitListOn]
    rw [if_neg hx, ih hrest]

theorem rustLines_single (s : List Char) (hne : s ≠ []) (hnl : '\n' ∉ s)
    (hcr : '\r' ∉ s) : rustLines s = [s] := by
  rw [rustLines, if_neg hne]
  have hlast : ¬ s.getLast? = some '\n' := by
    intro hl
    exact hnl (getLast?_mem_self s _ hl)
  rw [splitListOn_of_not_mem _ s hnl]
  dsimp only
  rw [if_neg hlast]
  have hstrip : stripCr s = s := by
    rw [stripCr, if_neg]
    intro hl
    exact hcr (getLast?_mem_self s _ hl)
  rw [List.map_cons, List.map_nil, hstrip]

/-- A placeholder parse tree (`parse_file_internal` never consults the
tree on the fallback path). -/
def dummyNode : TSNode := .node "" 0 0 0 0 []

/-- Concrete evaluation of the fallback path on a one-line 2001-byte file
with an unknown extension. -/
theorem parse_xyz_eval :
    parse_file_internal "a.xyz" (List.replicate 2001 'a') dummyNode =
      [⟨List.replicate 2001 'a', 1, 1, "block", none, "unknown"⟩] := by
  have hlang : Language.from_extension (extOf "a.xyz") = Language.Unknown := by decide
  have hnl : '\n' ∉ List.replicate 2001 'a' := by
    intro hm
    have := List.eq_of_mem_replicate hm
    cases this
  have hcr : '\r' ∉ List.replicate 2001 'a' := by
    intro hm
    have := List.eq_of_mem_replicate hm
    cases this
  have hne : List.replicate 2001 'a' ≠ [] := by
    apply List.ne_nil_of_length_pos
    rw [List.length_replicate]
    norm_num
  set l : List Char := List.replicate 2001 'a' with hldef
  have hlen : l.length = 2001 := by rw [hldef, List.length_replicate]
  have hlines : rustLines l = [l] := rustLines_single l hne hnl hcr
  rw [parse_file_internal, hlang, if_pos rfl, chunk_by_lines, hlines]
  rw [if_neg (by rw [List.length_singleton]; omega)]
  rw [chunk_by_lines_go, dif_pos (by rw [List.length_singleton]; omega)]
  dsimp only
  have he : min (0 + 30) [l].length = 1 := by
    rw [List.length_singleton]
    exact Nat.min_eq_right (by omega)
  rw [he]
  have hsub : List.intercalate ['\n'] (([l].drop 0).take (1 - 0)) = l := by
    rw [List.drop_zero]
    rw [show List.take (1 - 0) [l] = [l] from rfl]
    rw [show List.intercalate ['\n'] [l] = l ++ [] from rfl, List.append_nil]
  rw [hsub]
  rw [if_pos (show MIN_CHUNK_SIZE ≤ l.length by rw [hlen, MIN_CHUNK_SIZE]; omega)]
  rw [if_pos (show 1 ≥ [l].length by rw [List.length_singleton])]
  rfl

/-- Counterexample to C2 as stated: a one-line 2001-byte file with an
unknown extension is emitted by the fallback chunker as a single chunk of
2001 bytes, above `MAX_CHUNK_SIZE` = 2000. -/
theorem claim_C2_counterexample :
    (parse_file_internal "a.xyz" (List.replicate 2001 'a') dummyNode).map
        (fun c => c.content.length) = [2001] ∧
    MAX_CHUNK_SIZE < 2001 := by
  refine ⟨?_, by decide⟩
  rw [parse_xyz_eval, List.map_cons, List.map_nil]
  dsimp only
  rw [List.length_replicate]

/-- Witness for C2 at a concrete input. -/
theorem claim_C2_witness :
    (⟨List.replicate 2001 'a', 1, 1, "block", none, "unknown"⟩ : CodeChunk) ∈
      parse_file_internal "a.xyz" (List.replicate 2001 'a') dummyNode ∧
    MIN_CHUNK_SIZE ≤
      ((⟨List.replicate 2001 'a', 1, 1, "block", none, "unknown"⟩ : CodeChunk)).content.length := by
  have hmem : (⟨List.replicate 2001 'a', 1, 1, "block", none, "unknown"⟩ : CodeChunk) ∈
      parse_file_internal "a.xyz" (List.replicate 2001 'a') dummyNode := by
    rw [parse_xyz_eval]
    exact List.mem_singleton.mpr rfl
  exact ⟨hmem, claim_C2_chunk_size_bounds "a.xyz" (List.replicate 2001 'a') dummyNode _ hmem⟩

end OCI
